import Mathlib

/-!
Verification of the device-online-status coordinators in
`Yellowbox-exercise-task-oct24.ts` (with the `part_000` variant where noted).

Shallow embedding conventions:

* A backend is an oracle `Env : String → Except Unit JsResponse`.
  `Except.error ()` models a `fetch` whose promise rejects (transport
  failure); `Except.ok r` models a settled HTTP response `r`, where
  `r.ok` is `response.ok` and `r.body` is the result of `response.json()`
  (`none` models a JSON body that fails to parse as a boolean).
* A JS `Map<string, boolean>` is an association list in insertion order;
  `mapSet` follows `Map.prototype.set` (update the value in place if the
  key is present, otherwise append at the end).
* An `async` function returning `Promise<Map<...>>` becomes a function
  into `Except Unit StatusMap`: `Except.error ()` means the returned
  promise rejects.
* The nondeterministic completion order of concurrent fetches is passed
  in explicitly where it can influence the result (the sliding-window
  coordinator takes a `sched : List Nat` choosing which in-flight request
  settles next; the trace models take a permutation parameter).  Where a
  completion order is not passed, concurrent writes are modelled in list
  order; all properties proved about those maps (key sets, per-key values,
  sizes, sorted output) are insensitive to the write order because the
  value written under a key is a function of the key alone.
-/

namespace Yellowbox



/-- A settled HTTP response: `ok` is `response.ok`, `body` is the parsed
JSON boolean (`none` when `response.json()` fails). -/
structure JsResponse where
  ok : Bool
  body : Option Bool
deriving DecidableEq, Repr

/-- The backend oracle: what `await fetch(url-for-deviceId)` does for each
device id. `Except.error ()` is a rejected fetch promise. -/
abbrev Env := String → Except Unit JsResponse

/-- A JS `Map<string, boolean>` in insertion order. -/
abbrev StatusMap := List (String × Bool)

/-- `Map.prototype.set`: if the key is present, update its value in place
(keeping its position); otherwise append the new entry at the end. -/
def mapSet : StatusMap → String → Bool → StatusMap
  | [], k, v => [(k, v)]
  | p :: m, k, v => if p.1 = k then (k, v) :: m else p :: mapSet m k v

/-- `Map.prototype.get` as an association-list lookup. -/
def mapGet : StatusMap → String → Option Bool
  | [], _ => none
  | p :: m, k => if p.1 = k then some p.2 else mapGet m k

/-- The key sequence of the map, in iteration (insertion) order. -/
def mapKeys (m : StatusMap) : List String := m.map Prod.fst

/-- The per-device fetch step shared (up to endpoint URL) by
`getDevicesOnlineStatusOne`, `getDevicesOnlineStatusTwo`,
`getDevicesOnlineStatusFour` and the `part_000` variant of
`getDevicesOnlineStatusThree`: the fetch and the response handling sit
inside a `try`/`catch` that maps every failure to `false`; a non-`ok`
response maps to `false`; an unparseable body maps to `false`. -/
def fetchDeviceStatus (env : Env) (deviceId : String) : Bool :=
  match env deviceId with
  | .error _ => false
  | .ok r => if r.ok then r.body.getD false else false

/-- The per-device step `responses` of `getDevicesOnlineStatusThree` in the
main file: there the `await fetch(...)` sits before the `try` block, so a
transport rejection propagates, while a non-`ok` response or a parse
failure is still absorbed to `false`. -/
def fetchStatusThree (env : Env) (deviceId : String) : Except Unit Bool :=
  match env deviceId with
  | .error _ => .error ()
  | .ok r => .ok (if r.ok then r.body.getD false else false)

/-- Fan the guarded fetcher over `ids`, writing each result into the map.
This is the shared result assembly of `getDevicesOnlineStatusOne` (the
`for`/`await` loop), `getDevicesOnlineStatusTwo` (the `Promise.all`
fan-in), the `part_000` variant of `getDevicesOnlineStatusThree`, and —
for any completion order, see `swRun_mapGet` — `getDevicesOnlineStatusFour`. -/
def assemble (env : Env) (m0 : StatusMap) (ids : List String) : StatusMap :=
  ids.foldl (fun m d => mapSet m d (fetchDeviceStatus env d)) m0

/-- First-occurrence deduplication: the key order a JS `Map` ends up with
when entries are inserted in list order. -/
def dedupFirst : List String → List String
  | [] => []
  | d :: l => d :: dedupFirst (l.filter (fun x => x ≠ d))
termination_by l => l.length
decreasing_by simp only [List.length_cons]
              exact Nat.lt_succ_of_le (List.length_filter_le _ _)

/-- Stable insertion: place `x` at the first position whose element is not
strictly smaller, so that `x` precedes elements that compare equal but came
later. For a consistent comparator this reproduces the (stable) order of
JS `Array.prototype.sort`. -/
def stableInsert (le : α → α → Bool) (x : α) : List α → List α
  | [] => [x]
  | y :: l => if le x y then x :: y :: l else y :: stableInsert le x l

/-- Stable sort by repeated insertion; models the `sort` call in
`sortedMap` for a consistent comparator (JS `sort` is stable and any two
stable sorts agree). -/
def stableSort (le : α → α → Bool) : List α → List α
  | [] => []
  | x :: l => stableInsert le x (stableSort le l)

/-- Sortedness with respect to a boolean comparator. -/
def SortedB (le : α → α → Bool) (l : List α) : Prop :=
  l.Pairwise (fun a b => le a b = true)

/-- Accumulate the decimal value of a digit sequence. -/
def decimalNat : List Char → Nat → Nat
  | [], acc => acc
  | ch :: l, acc => decimalNat l (acc * 10 + (ch.toNat - 48))

/-- `Number(s)` of the JS sort comparator, for canonical decimal ids. A
non-numeric key gives `NaN` in JS, whose relative order the source leaves
implementation-defined (spec §9); the model reads its digit values anyway,
and no claim below depends on that case. -/
def jsNumber (s : String) : Nat := decimalNat s.data 0

/-- The comparator `(a, b) => Number(a[0]) - Number(b[0])` of `sortedMap`,
as a (non-strict) ordering on entries. -/
def numLe (a b : String × Bool) : Bool := decide (jsNumber a.1 ≤ jsNumber b.1)

/-- The same comparator on bare keys. -/
def keyLe (a b : String) : Bool := decide (jsNumber a ≤ jsNumber b)

/-- `sortedMap` from the source: rebuild the map from its entries sorted
ascending by the numeric interpretation of the key. -/
def sortedMap (m : StatusMap) : StatusMap := stableSort numLe m

/-- The batch size of `getDevicesOnlineStatusThree`. -/
def batchSize : Nat := 5

/-- The slices `deviceIds.slice(i, min(i + 5, length))` of the batch loop
`for (let i = 0; i < deviceIds.length; i += batchSize)`. -/
def chunks5 : List α → List (List α)
  | [] => []
  | l@(_ :: _) => l.take batchSize :: chunks5 (l.drop batchSize)
termination_by l => l.length
decreasing_by
  simp_all [batchSize]
  all_goals omega

/-- `getDevicesOnlineStatusOne`: the sequential coordinator. All failure
handling sits inside the loop body's `try`/`catch`, so the promise always
resolves; the map is returned without sorting. -/
def getDevicesOnlineStatusOne (env : Env) (deviceIds : List String) :
    Except Unit StatusMap :=
  .ok (assemble env [] deviceIds)

/-- `getDevicesOnlineStatusTwo`: the unbounded coordinator. A rejected
fetch is caught (`.catch` to `null`) and the fan-in callbacks absorb
non-`ok` responses, `null`, and parse failures to `false`; then the map is
sorted. Each position's write is a function of its key alone, so modelling
the concurrent writes in list order loses nothing the claims depend on. -/
def getDevicesOnlineStatusTwo (env : Env) (deviceIds : List String) :
    Except Unit StatusMap :=
  .ok (sortedMap (assemble env [] deviceIds))

/-- `getDevicesOnlineStatusThree` from the main file: batches of 5 via
`Promise.all`; each batch member runs `fetchStatusThree`, whose fetch sits
outside the `try`, so a transport rejection rejects the whole batch and
with it the coordinator (`foldlM` over `Except` stops at the first error,
as `await Promise.all` does — in-flight group-mates may still write to the
map in JS, but the map is discarded when the promise rejects). -/
def getDevicesOnlineStatusThree (env : Env) (deviceIds : List String) :
    Except Unit StatusMap := do
  let m ← (chunks5 deviceIds).foldlM
    (fun acc batch =>
      batch.foldlM
        (fun m d => (fetchStatusThree env d).map (fun v => mapSet m d v)) acc)
    []
  return sortedMap m

/-- The `part_000` variant of `getDevicesOnlineStatusThree`: identical
batch structure, but the fetch sits inside the `try`, so every failure is
absorbed by `fetchDeviceStatus`. -/
def getDevicesOnlineStatusThreeAlt (env : Env) (deviceIds : List String) :
    Except Unit StatusMap :=
  .ok (sortedMap ((chunks5 deviceIds).foldl
    (fun acc batch => assemble env acc batch) []))

/-- The concurrency cap of `getDevicesOnlineStatusFour`. -/
def maxConcurrentRequests : Nat := 5

/-- The scheduling state of `getDevicesOnlineStatusFour` between
suspension points. `cursor` is `currentIndex`; `active` is the set of
claimed-but-unsettled positions, enriched with the positions' identities
(the code keeps only the count `activeRequests = active.length`);
`completed` records, in settlement order, the positions whose fetch has
settled and decremented the count. -/
structure SWState where
  cursor : Nat
  active : List Nat
  completed : List Nat
deriving DecidableEq, Repr

/-- The state after the synchronous seeding loop
`Array(Math.min(maxConcurrentRequests, deviceIds.length)).fill(null).map(executeNext)`:
`min 5 n` chains have each claimed one index and suspended at their fetch. -/
def swSeed (n : Nat) : SWState :=
  ⟨min maxConcurrentRequests n, List.range (min maxConcurrentRequests n), []⟩

/-- One settlement event: the `finally` callback of `executeNext`. The
`c`-th in-flight request (mod the number in flight) settles; its slot is
released (`activeRequests--`) and — in the same synchronous step — if the
count is below the cap and the cursor has not reached the end, the freed
chain claims `deviceIds[currentIndex++]` via the recursive `executeNext`. -/
def swStep (n : Nat) (s : SWState) (c : Nat) : SWState :=
  if s.active = [] then s
  else if (s.active.eraseIdx (c % s.active.length)).length <
      maxConcurrentRequests ∧ s.cursor < n then
    ⟨s.cursor + 1, s.active.eraseIdx (c % s.active.length) ++ [s.cursor],
      s.completed ++ [s.active.getD (c % s.active.length) 0]⟩
  else
    ⟨s.cursor, s.active.eraseIdx (c % s.active.length),
      s.completed ++ [s.active.getD (c % s.active.length) 0]⟩

/-- The states of one invocation of `getDevicesOnlineStatusFour` on a list
of length `n`: the seeded state and everything a sequence of settlement
events can produce from it. -/
inductive SWReach (n : Nat) : SWState → Prop
  | seed : SWReach n (swSeed n)
  | step (s : SWState) (c : Nat) (hs : SWReach n s) (hne : s.active ≠ []) :
      SWReach n (swStep n s c)

/-- The scheduling invariant of the sliding window (spec §4.5): the count
of in-flight requests never exceeds the cap, the cursor never leaves
`[0, n]`, the pool is never idle while work remains, and the claimed
positions — those settled plus those in flight — are exactly
`0, …, cursor-1`, each claimed exactly once. -/
def SWInv (n : Nat) (s : SWState) : Prop :=
  s.active.length ≤ maxConcurrentRequests ∧ s.cursor ≤ n ∧
    (s.cursor < n → s.active ≠ []) ∧
    (s.completed ++ s.active).Perm (List.range s.cursor)

/-- Run the sliding-window pool to completion. `sched` resolves the
nondeterministic settlement order: at each step the `sched.headD 0`-th
in-flight request (mod the pool size) settles, writes its result into the
map exactly as `fetchDeviceStatus` computes it, and the state advances by
`swStep`. The run ends when the pool is empty, which is when
`Promise.all(initialBatch)` resolves. -/
def swRun (env : Env) (ids : List String) (s : SWState) (m : StatusMap)
    (sched : List Nat) : StatusMap × SWState :=
  if h : s.active = [] then (m, s)
  else
    swRun env ids (swStep ids.length s (sched.headD 0))
      (mapSet m
        (ids.getD (s.active.getD ((sched.headD 0) % s.active.length) 0) "")
        (fetchDeviceStatus env
          (ids.getD (s.active.getD ((sched.headD 0) % s.active.length) 0) "")))
      sched.tail
termination_by (ids.length - s.cursor) + s.active.length
decreasing_by
  have hlen : 0 < s.active.length := List.length_pos.2 h
  have hk : (sched.head?.getD 0) % s.active.length < s.active.length :=
    Nat.mod_lt _ hlen
  have herase :
      (s.active.eraseIdx ((sched.head?.getD 0) % s.active.length)).length =
        s.active.length - 1 := by
    rw [List.length_eraseIdx]
    simp [hk]
  rw [swStep, if_neg h]
  simp only [List.headD_eq_head?_getD]
  by_cases hg :
      (s.active.eraseIdx ((sched.head?.getD 0) % s.active.length)).length <
        maxConcurrentRequests ∧ s.cursor < ids.length
  · rw [if_pos hg]
    simp only [List.length_append, List.length_cons, List.length_nil,
      herase]
    omega
  · rw [if_neg hg]
    simp only [herase]
    omega

/-- `getDevicesOnlineStatusFour` from the source: seed `min(5, n)` chains,
let the pool run (under an arbitrary settlement order `sched`), then sort
the assembled map. Every failure is absorbed inside `fetchDeviceStatus`,
so the promise always resolves. -/
def getDevicesOnlineStatusFour (env : Env) (deviceIds : List String)
    (sched : List Nat) : Except Unit StatusMap :=
  .ok (sortedMap (swRun env deviceIds (swSeed deviceIds.length) [] sched).1)

/-- The positions not yet claimed by any chain: `cursor, …, n-1`. -/
def unclaimed (n c : Nat) : List Nat := List.range' c (n - c)

/-- The positions whose write is still outstanding from state `s`: those
in flight plus those not yet claimed. -/
def pendingIdx (n : Nat) (s : SWState) : List Nat :=
  s.active ++ unclaimed n s.cursor

/-- An observable scheduling event: the fetch for list position `i` is
issued, or it settles (resolves or rejects). -/
inductive FetchEvent where
  | start (i : Nat)
  | finish (i : Nat)
deriving DecidableEq, Repr

/-- Recognise a `start` event. -/
def isStart : FetchEvent → Bool
  | .start _ => true
  | .finish _ => false

/-- Recognise a `finish` event. -/
def isFinish : FetchEvent → Bool
  | .start _ => false
  | .finish _ => true

/-- Number of fetches issued within a trace fragment. -/
def startCount (tr : List FetchEvent) : Nat := tr.countP isStart

/-- Number of fetches settled within a trace fragment. -/
def finishCount (tr : List FetchEvent) : Nat := tr.countP isFinish

/-- `p` is an initial segment of `l`. Every instant during a run
corresponds to an initial segment of its event trace. -/
def IsInit (p l : List α) : Prop := ∃ q, p ++ q = l

/-- The event trace of `getDevicesOnlineStatusOne`: the loop issues the
fetch for position `i` and awaits its settlement before moving on. -/
def seqTrace : Nat → List FetchEvent
  | 0 => []
  | n + 1 => seqTrace n ++ [.start n, .finish n]

/-- The event trace of `getDevicesOnlineStatusTwo`: the `deviceIds.map`
fan-out issues every fetch synchronously in list order, and the fetches
then settle in an arbitrary order `perm`. -/
def unboundedTrace (perm : List Nat → List Nat) (n : Nat) :
    List FetchEvent :=
  (List.range n).map FetchEvent.start ++
    (perm (List.range n)).map FetchEvent.finish

/-- One batch of `getDevicesOnlineStatusThree`: the `.map(responses)` call
issues the whole group synchronously in list order, then `Promise.all`
waits while the group settles in an arbitrary order `perm b`. -/
def batchBlock (perm : List Nat → List Nat) (b : List Nat) :
    List FetchEvent :=
  b.map FetchEvent.start ++ (perm b).map FetchEvent.finish

/-- The event trace of `getDevicesOnlineStatusThree` on positions
`s, …, s+m-1`: the batch loop emits one block per group of 5, in order. -/
def batchedTraceFrom (perm : List Nat → List Nat) (s m : Nat) :
    List FetchEvent :=
  ((chunks5 (List.range' s m)).map (batchBlock perm)).flatten

/-- The event trace of `getDevicesOnlineStatusThree` on an `n`-element
input. -/
def batchedTrace (perm : List Nat → List Nat) (n : Nat) :
    List FetchEvent :=
  batchedTraceFrom perm 0 n

/-- The key set of `m` is exactly the set of input identifiers, with one
entry per identifier. -/
def keysMatch (ids : List String) (m : StatusMap) : Prop :=
  (mapKeys m).Nodup ∧ ∀ k, k ∈ mapKeys m ↔ k ∈ ids

/-- The backend call completed successfully and its body parsed to
`true`. -/
def okTrue (r : Except Unit JsResponse) : Prop :=
  ∃ resp, r = .ok resp ∧ resp.ok = true ∧ resp.body = some true

/-- A backend outcome the Status Fetcher normalises to `false`: a
transport rejection, a non-success response, or an unparseable body. -/
def failedOutcome (r : Except Unit JsResponse) : Prop :=
  r = .error () ∨ ∃ resp, r = .ok resp ∧ (resp.ok = false ∨ resp.body = none)

/-- Every value of the map is `true`. -/
def allValuesTrue (m : StatusMap) : Prop := ∀ p ∈ m, p.2 = true

/-- Every value of the map is `false`. -/
def allValuesFalse (m : StatusMap) : Prop := ∀ p ∈ m, p.2 = false

/-- A value is `false` exactly at the key `x`. -/
def onlyFalseAt (x : String) (m : StatusMap) : Prop :=
  ∀ p ∈ m, (p.2 = false ↔ p.1 = x)

@[simp] theorem mapKeys_nil : mapKeys [] = [] := rfl

@[simp] theorem mapKeys_cons (p : String × Bool) (m : StatusMap) :
    mapKeys (p :: m) = p.1 :: mapKeys m := rfl

theorem mapGet_mapSet_self (m : StatusMap) (k : String) (v : Bool) :
    mapGet (mapSet m k v) k = some v := by
  induction m with
  | nil => simp [mapSet, mapGet]
  | cons p m ih =>
    by_cases h : p.1 = k
    · simp [mapSet, mapGet, h]
    · simp [mapSet, mapGet, h, ih]

theorem mapGet_mapSet_ne (m : StatusMap) (k k' : String) (v : Bool)
    (h : k' ≠ k) : mapGet (mapSet m k v) k' = mapGet m k' := by
  have h' : ¬ (k = k') := fun hh => h hh.symm
  induction m with
  | nil => simp [mapSet, mapGet, h']
  | cons p m ih =>
    by_cases hp : p.1 = k
    · subst hp
      simp [mapSet, mapGet, h']
    · by_cases hp' : p.1 = k'
      · simp [mapSet, mapGet, hp, hp', h]
      · simp [mapSet, mapGet, hp, hp', ih]

theorem mapKeys_mapSet (m : StatusMap) (k : String) (v : Bool) :
    mapKeys (mapSet m k v) =
      if k ∈ mapKeys m then mapKeys m else mapKeys m ++ [k] := by
  induction m with
  | nil => simp [mapSet]
  | cons p m ih =>
    by_cases h : p.1 = k
    · rw [mapSet, if_pos h]
      simp [← h]
    · have h' : ¬ k = p.1 := fun hh => h hh.symm
      rw [mapSet, if_neg h]
      simp only [mapKeys_cons, List.mem_cons, h', false_or, ih]
      by_cases hmem : k ∈ mapKeys m
      · simp [hmem]
      · simp [hmem]

theorem mapGet_eq_none_iff (m : StatusMap) (k : String) :
    mapGet m k = none ↔ k ∉ mapKeys m := by
  induction m with
  | nil => simp [mapGet]
  | cons p m ih =>
    by_cases h : p.1 = k
    · simp [mapGet, h]
    · have h' : ¬ k = p.1 := fun hh => h hh.symm
      simp [mapGet, h, ih, h']

theorem mapGet_isSome_iff (m : StatusMap) (k : String) :
    (mapGet m k).isSome ↔ k ∈ mapKeys m := by
  rcases h : mapGet m k with _ | v
  · simpa [h] using (mapGet_eq_none_iff m k).1 h
  · simp only [Option.isSome_some, true_iff]
    by_contra hmem
    rw [(mapGet_eq_none_iff m k).2 hmem] at h
    exact Option.noConfusion h

theorem mem_of_mapGet_eq_some (m : StatusMap) (k : String) (v : Bool)
    (h : mapGet m k = some v) : (k, v) ∈ m := by
  induction m with
  | nil => simp [mapGet] at h
  | cons p m ih =>
    by_cases hp : p.1 = k
    · rw [mapGet, if_pos hp] at h
      have : p = (k, v) := by
        cases p
        cases h
        simp_all
      exact this ▸ List.mem_cons_self _ _
    · rw [mapGet, if_neg hp] at h
      exact List.mem_cons_of_mem _ (ih h)

theorem mapGet_eq_some_of_mem (m : StatusMap) (p : String × Bool)
    (hnd : (mapKeys m).Nodup) (h : p ∈ m) : mapGet m p.1 = some p.2 := by
  induction m with
  | nil => simp at h
  | cons q m ih =>
    rcases List.mem_cons.1 h with rfl | hm
    · simp [mapGet]
    · have hq : q.1 ≠ p.1 := by
        intro he
        have : p.1 ∈ mapKeys m := List.mem_map_of_mem Prod.fst hm
        rw [← he] at this
        exact (List.nodup_cons.1 hnd).1 this
      rw [mapGet, if_neg hq]
      exact ih (List.nodup_cons.1 hnd).2 hm

@[simp] theorem assemble_nil (env : Env) (m0 : StatusMap) :
    assemble env m0 [] = m0 := rfl

@[simp] theorem assemble_cons (env : Env) (m0 : StatusMap) (d : String)
    (ids : List String) :
    assemble env m0 (d :: ids) =
      assemble env (mapSet m0 d (fetchDeviceStatus env d)) ids := rfl

theorem mapGet_assemble (env : Env) (ids : List String) (m0 : StatusMap)
    (k : String) :
    mapGet (assemble env m0 ids) k =
      if k ∈ ids then some (fetchDeviceStatus env k) else mapGet m0 k := by
  induction ids generalizing m0 with
  | nil => simp
  | cons d ids ih =>
    rw [assemble_cons, ih]
    by_cases hk : k ∈ ids
    · simp [hk]
    · by_cases hd : k = d
      · subst hd
        simp [hk, mapGet_mapSet_self]
      · simp [hk, hd, mapGet_mapSet_ne _ _ _ _ hd]

@[simp] theorem dedupFirst_nil : dedupFirst [] = [] := by
  rw [dedupFirst]

theorem dedupFirst_cons (d : String) (l : List String) :
    dedupFirst (d :: l) = d :: dedupFirst (l.filter (fun x => x ≠ d)) := by
  rw [dedupFirst]

theorem mem_dedupFirst : ∀ (l : List String) (k : String),
    k ∈ dedupFirst l ↔ k ∈ l := by
  intro l
  induction l using dedupFirst.induct with
  | case1 => simp
  | case2 d l ih =>
    intro k
    rw [dedupFirst_cons]
    by_cases hk : k = d
    · simp [hk]
    · simp only [List.mem_cons, hk, false_or, ih, List.mem_filter]
      simp [hk]

theorem dedupFirst_nodup : ∀ l : List String, (dedupFirst l).Nodup := by
  intro l
  induction l using dedupFirst.induct with
  | case1 => simp
  | case2 d l ih =>
    rw [dedupFirst_cons]
    refine List.nodup_cons.2 ⟨?_, ih⟩
    intro hmem
    have := (mem_dedupFirst _ _).1 hmem
    simp at this

/-- The keys accumulated by the assembly fold: a `mapSet` either keeps the
key list or appends the fresh key. -/
theorem mapKeys_assemble (env : Env) (ids : List String) (m0 : StatusMap) :
    mapKeys (assemble env m0 ids) =
      mapKeys m0 ++ dedupFirst (ids.filter (fun x => x ∉ mapKeys m0)) := by
  induction ids generalizing m0 with
  | nil => simp
  | cons d ids ih =>
    rw [assemble_cons, ih, mapKeys_mapSet]
    by_cases hd : d ∈ mapKeys m0
    · simp only [hd, if_true, List.filter_cons]
      simp [hd]
    · simp only [hd, if_false, List.filter_cons]
      have hfil : ids.filter (fun x => x ∉ mapKeys m0 ++ [d]) =
          (ids.filter (fun x => x ∉ mapKeys m0)).filter (fun x => x ≠ d) := by
        rw [List.filter_filter]
        apply List.filter_congr
        intro x hx
        by_cases hxd : x = d
        · simp [hxd, hd]
        · by_cases hxm : x ∈ mapKeys m0
          · simp [hxd, hxm]
          · simp [hxd, hxm]
      rw [hfil]
      simp [dedupFirst_cons]

theorem mapKeys_assemble_nil (env : Env) (ids : List String) :
    mapKeys (assemble env [] ids) = dedupFirst ids := by
  rw [mapKeys_assemble]
  simp

theorem mapKeys_assemble_nodup (env : Env) (ids : List String) :
    (mapKeys (assemble env [] ids)).Nodup := by
  rw [mapKeys_assemble_nil]
  exact dedupFirst_nodup ids

theorem mem_mapKeys_assemble (env : Env) (ids : List String) (k : String) :
    k ∈ mapKeys (assemble env [] ids) ↔ k ∈ ids := by
  rw [mapKeys_assemble_nil, mem_dedupFirst]

theorem stableInsert_perm (le : α → α → Bool) (x : α) (l : List α) :
    (stableInsert le x l).Perm (x :: l) := by
  induction l with
  | nil => simp [stableInsert]
  | cons y l ih =>
    rw [stableInsert]
    by_cases h : le x y
    · simp [h]
    · simp only [h, if_false]
      exact (ih.cons y).trans (List.Perm.swap x y l)

theorem stableSort_perm (le : α → α → Bool) (l : List α) :
    (stableSort le l).Perm l := by
  induction l with
  | nil => simp [stableSort]
  | cons x l ih =>
    rw [stableSort]
    exact (stableInsert_perm le x _).trans (ih.cons x)

theorem sortedB_stableInsert (le : α → α → Bool)
    (htot : ∀ a b, le a b = false → le b a = true)
    (htrans : ∀ a b c, le a b = true → le b c = true → le a c = true)
    (x : α) (l : List α)
    (hl : SortedB le l) : SortedB le (stableInsert le x l) := by
  induction l with
  | nil => simp [stableInsert, SortedB]
  | cons y l ih =>
    rw [stableInsert]
    rcases List.pairwise_cons.1 hl with ⟨hy, hl'⟩
    by_cases h : le x y
    · rw [if_pos h]
      refine List.pairwise_cons.2 ⟨?_, hl⟩
      intro b hb
      rcases List.mem_cons.1 hb with rfl | hb'
      · exact h
      · exact htrans x y b h (hy b hb')
    · rw [if_neg h]
      refine List.pairwise_cons.2 ⟨?_, ih hl'⟩
      intro b hb
      have hb' := (stableInsert_perm le x l).mem_iff.1 hb
      rcases List.mem_cons.1 hb' with rfl | hb''
      · exact htot _ _ (Bool.eq_false_iff.2 h)
      · exact hy b hb''

theorem sortedB_stableSort (le : α → α → Bool)
    (htot : ∀ a b, le a b = false → le b a = true)
    (htrans : ∀ a b c, le a b = true → le b c = true → le a c = true)
    (l : List α) : SortedB le (stableSort le l) := by
  induction l with
  | nil => simp [stableSort, SortedB]
  | cons x l ih => exact sortedB_stableInsert le htot htrans x _ ih

/-- The comparator only looks at the image under `f`: sorting commutes with
mapping. Used to read off the key order of a sorted map. -/
theorem map_stableInsert (le : α → α → Bool) (le' : β → β → Bool)
    (f : α → β) (hf : ∀ a b, le' (f a) (f b) = le a b) (x : α) :
    ∀ l : List α,
      (stableInsert le x l).map f = stableInsert le' (f x) (l.map f) := by
  intro l
  induction l with
  | nil => simp [stableInsert]
  | cons y l ih =>
    rw [stableInsert, List.map_cons, stableInsert, hf]
    by_cases h : le x y
    · simp [h]
    · simp [h, ih]

theorem map_stableSort (le : α → α → Bool) (le' : β → β → Bool)
    (f : α → β) (hf : ∀ a b, le' (f a) (f b) = le a b) :
    ∀ l : List α, (stableSort le l).map f = stableSort le' (l.map f) := by
  intro l
  induction l with
  | nil => simp [stableSort]
  | cons x l ih =>
    rw [stableSort, List.map_cons, stableSort, ← ih,
      map_stableInsert le le' f hf]

/-- Two sorted lists that are permutations of each other are equal, as soon
as the comparator is antisymmetric on the elements involved. -/
theorem sortedB_perm_eq (le : α → α → Bool) :
    ∀ (l₁ l₂ : List α), l₁.Perm l₂ → SortedB le l₁ → SortedB le l₂ →
      (∀ a ∈ l₁, ∀ b ∈ l₁, le a b = true → le b a = true → a = b) →
      l₁ = l₂ := by
  intro l₁
  induction l₁ with
  | nil => intro l₂ hp _ _ _; exact (List.Perm.nil_eq hp).symm ▸ rfl
  | cons a t₁ ih =>
    intro l₂ hp hs₁ hs₂ hanti
    cases l₂ with
    | nil => simp at hp
    | cons b t₂ =>
      have hab : a = b := by
        have hbmem : b ∈ a :: t₁ := hp.mem_iff.2 (List.mem_cons_self b t₂)
        have hamem : a ∈ b :: t₂ := hp.mem_iff.1 (List.mem_cons_self a t₁)
        rcases List.mem_cons.1 hbmem with h1 | h1
        · exact h1.symm
        rcases List.mem_cons.1 hamem with h2 | h2
        · exact h2
        have hle1 : le a b = true := (List.pairwise_cons.1 hs₁).1 b h1
        have hle2 : le b a = true := (List.pairwise_cons.1 hs₂).1 a h2
        exact hanti a (List.mem_cons_self a t₁) b hbmem hle1 hle2
      subst hab
      have ht : t₁.Perm t₂ := hp.cons_inv
      have : t₁ = t₂ := by
        refine ih t₂ ht (List.pairwise_cons.1 hs₁).2
          (List.pairwise_cons.1 hs₂).2 ?_
        intro x hx y hy
        exact hanti x (List.mem_cons_of_mem a hx) y (List.mem_cons_of_mem a hy)
      rw [this]

theorem sortedMap_perm (m : StatusMap) : (sortedMap m).Perm m :=
  stableSort_perm numLe m

theorem numLe_total : ∀ a b, numLe a b = false → numLe b a = true := by
  intro a b h
  simp [numLe] at *
  omega

theorem numLe_trans :
    ∀ a b c, numLe a b = true → numLe b c = true → numLe a c = true := by
  intro a b c h1 h2
  simp [numLe] at *
  omega

theorem sortedMap_sorted (m : StatusMap) : SortedB numLe (sortedMap m) :=
  sortedB_stableSort numLe numLe_total numLe_trans m

theorem mapKeys_sortedMap (m : StatusMap) :
    mapKeys (sortedMap m) = stableSort keyLe (mapKeys m) :=
  map_stableSort numLe keyLe Prod.fst (fun _ _ => rfl) m

theorem mapGet_sortedMap (m : StatusMap) (hnd : (mapKeys m).Nodup)
    (k : String) : mapGet (sortedMap m) k = mapGet m k := by
  have hperm := sortedMap_perm m
  have hnd' : (mapKeys (sortedMap m)).Nodup :=
    ((hperm.map Prod.fst).symm.nodup hnd)
  rcases h : mapGet m k with _ | v
  · have : k ∉ mapKeys m := (mapGet_eq_none_iff m k).1 h
    have : k ∉ mapKeys (sortedMap m) := by
      intro hmem
      exact this ((hperm.map Prod.fst).mem_iff.1 hmem)
    exact (mapGet_eq_none_iff _ k).2 this
  · have hmem : (k, v) ∈ sortedMap m :=
      hperm.mem_iff.2 (mem_of_mapGet_eq_some m k v h)
    exact mapGet_eq_some_of_mem _ (k, v) hnd' hmem

@[simp] theorem chunks5_nil : chunks5 ([] : List α) = [] := by rw [chunks5]

theorem chunks5_cons (a : α) (t : List α) :
    chunks5 (a :: t) =
      (a :: t).take batchSize :: chunks5 ((a :: t).drop batchSize) := by
  rw [chunks5]

theorem chunks5_flatten : ∀ l : List α, (chunks5 l).flatten = l := by
  intro l
  induction l using chunks5.induct with
  | case1 => simp
  | case2 a t ih =>
    rw [chunks5_cons, List.flatten_cons, ih, List.take_append_drop]

theorem chunks5_length_le : ∀ l : List α, ∀ b ∈ chunks5 l,
    b ≠ [] ∧ b.length ≤ batchSize := by
  intro l
  induction l using chunks5.induct with
  | case1 => simp
  | case2 a t ih =>
    rw [chunks5_cons]
    intro b hb
    rcases List.mem_cons.1 hb with rfl | hb'
    · constructor
      · simp [batchSize]
      · have := List.length_take (batchSize) (a :: t)
        simp only [this]
        exact Nat.min_le_left _ _
    · exact ih b hb'

theorem chunks5_ne_nil : ∀ l : List α, l ≠ [] → chunks5 l ≠ [] := by
  intro l h
  cases l with
  | nil => exact absurd rfl h
  | cons a t => rw [chunks5_cons]; simp

theorem chunks5_dropLast_length : ∀ l : List α,
    ∀ b ∈ (chunks5 l).dropLast, b.length = batchSize := by
  intro l
  induction l using chunks5.induct with
  | case1 => simp
  | case2 a t ih =>
    rw [chunks5_cons]
    by_cases hrest : (a :: t).drop batchSize = []
    · rw [hrest]
      simp
    · rw [List.dropLast_cons_of_ne_nil (chunks5_ne_nil _ hrest)]
      intro b hb
      rcases List.mem_cons.1 hb with rfl | hb'
      · have : batchSize < (a :: t).length := by
          by_contra hlen
          push_neg at hlen
          exact hrest (List.drop_eq_nil_of_le hlen)
        simp only [List.length_take]
        simp only [List.length_cons] at this ⊢
        omega
      · exact ih b hb'

theorem assemble_append (env : Env) (m0 : StatusMap) (l₁ l₂ : List String) :
    assemble env m0 (l₁ ++ l₂) = assemble env (assemble env m0 l₁) l₂ := by
  induction l₁ generalizing m0 with
  | nil => simp
  | cons d l₁ ih => rw [List.cons_append, assemble_cons, assemble_cons, ih]

theorem threeAlt_eq_assemble (env : Env) (deviceIds : List String) :
    getDevicesOnlineStatusThreeAlt env deviceIds =
      .ok (sortedMap (assemble env [] deviceIds)) := by
  rw [getDevicesOnlineStatusThreeAlt]
  congr 2
  have : ∀ (bs : List (List String)) (m0 : StatusMap),
      bs.foldl (fun acc batch => assemble env acc batch) m0 =
        assemble env m0 bs.flatten := by
    intro bs
    induction bs with
    | nil => simp
    | cons b bs ih =>
      intro m0
      rw [List.foldl_cons, List.flatten_cons, assemble_append, ih]
  rw [this, chunks5_flatten]

/-- When no fetch in a batch rejects, the batch fold over `Except` is the
plain assembly fold. -/
theorem batch_foldlM_ok (env : Env) (batch : List String) (acc : StatusMap)
    (h : ∀ d ∈ batch, env d ≠ .error ()) :
    batch.foldlM
        (fun m d => (fetchStatusThree env d).map (fun v => mapSet m d v)) acc
      = .ok (assemble env acc batch) := by
  induction batch generalizing acc with
  | nil => rfl
  | cons d batch ih =>
    have hd := h d (List.mem_cons_self d batch)
    rcases henv : env d with e | r
    · exact absurd (by rw [henv]) hd
    · have hstep : (fetchStatusThree env d).map (fun v => mapSet acc d v) =
          .ok (mapSet acc d (fetchDeviceStatus env d)) := by
        rw [fetchStatusThree, fetchDeviceStatus, henv]
        rfl
      rw [List.foldlM_cons, hstep, assemble_cons]
      exact ih _ (fun x hx => h x (List.mem_cons_of_mem d hx))

/-- When no fetch at all rejects, the main-file Three resolves and agrees
with the straightforward assembly. -/
theorem three_ok (env : Env) (deviceIds : List String)
    (h : ∀ d ∈ deviceIds, env d ≠ .error ()) :
    getDevicesOnlineStatusThree env deviceIds =
      .ok (sortedMap (assemble env [] deviceIds)) := by
  rw [getDevicesOnlineStatusThree]
  have hall : ∀ b ∈ chunks5 deviceIds, ∀ d ∈ b, env d ≠ .error () := by
    intro b hb d hd
    refine h d ?_
    rw [← chunks5_flatten deviceIds]
    exact List.mem_flatten.2 ⟨b, hb, hd⟩
  have : ∀ (bs : List (List String)) (m0 : StatusMap),
      (∀ b ∈ bs, ∀ d ∈ b, env d ≠ .error ()) →
      bs.foldlM
          (fun acc batch => batch.foldlM
            (fun m d => (fetchStatusThree env d).map (fun v => mapSet m d v))
            acc) m0
        = .ok (assemble env m0 bs.flatten) := by
    intro bs
    induction bs with
    | nil => intro m0 _; rfl
    | cons b bs ih =>
      intro m0 hbs
      rw [List.foldlM_cons, batch_foldlM_ok env b m0
        (hbs b (List.mem_cons_self b bs))]
      simp only [List.flatten_cons, assemble_append]
      exact ih _ (fun b' hb' => hbs b' (List.mem_cons_of_mem b hb'))
  rw [this (chunks5 deviceIds) [] hall, chunks5_flatten]
  rfl

/-- If some fetch rejects, the main-file Three rejects: the batch
containing the first rejecting id fails its `Promise.all`, and the
coordinator's promise rejects with it. -/
theorem three_error (env : Env) (deviceIds : List String)
    (h : ∃ d ∈ deviceIds, env d = .error ()) :
    getDevicesOnlineStatusThree env deviceIds = .error () := by
  rw [getDevicesOnlineStatusThree]
  rcases h with ⟨d, hd, herr⟩
  have hmem : ∃ b ∈ chunks5 deviceIds, d ∈ b := by
    rw [← chunks5_flatten deviceIds] at hd
    exact List.mem_flatten.1 hd
  have key : ∀ (bs : List (List String)) (m0 : StatusMap),
      (∃ b ∈ bs, d ∈ b) →
      bs.foldlM
          (fun acc batch => batch.foldlM
            (fun m d => (fetchStatusThree env d).map (fun v => mapSet m d v))
            acc) m0
        = .error () := by
    intro bs
    induction bs with
    | nil => intro m0 hcon; simp at hcon
    | cons b bs ih =>
      intro m0 hex
      have hbatch : ∀ (batch : List String) (acc : StatusMap), d ∈ batch →
          batch.foldlM
              (fun m x => (fetchStatusThree env x).map (fun v => mapSet m x v))
              acc
            = .error () := by
        intro batch
        induction batch with
        | nil => intro acc hcon; simp at hcon
        | cons x batch ihb =>
          intro acc hx
          rw [List.foldlM_cons]
          rcases List.mem_cons.1 hx with rfl | hx'
          · rw [fetchStatusThree, herr]
            rfl
          · rcases henvx : env x with e | r
            · rw [fetchStatusThree, henvx]
              rfl
            · rw [fetchStatusThree, henvx]
              simp only [Except.map_ok]
              exact ihb _ hx'
      rcases hex with ⟨b', hb', hdb'⟩
      rcases List.mem_cons.1 hb' with rfl | hbs'
      · rw [List.foldlM_cons, hbatch b' m0 hdb']
        rfl
      · rw [List.foldlM_cons]
        rcases hfold : b.foldlM
            (fun m x => (fetchStatusThree env x).map (fun v => mapSet m x v))
            m0 with e | macc
        · rfl
        · exact ih macc ⟨b', hbs', hdb'⟩
  rw [key (chunks5 deviceIds) [] hmem]
  rfl

theorem perm_getD_cons_eraseIdx :
    ∀ (l : List Nat) (k : Nat), k < l.length →
      l.Perm (l.getD k 0 :: l.eraseIdx k) := by
  intro l
  induction l with
  | nil => intro k hk; simp at hk
  | cons a t ih =>
    intro k hk
    cases k with
    | zero => simp
    | succ k =>
      have hk' : k < t.length := by simpa using hk
      have h1 : t.Perm (t.getD k 0 :: t.eraseIdx k) := ih k hk'
      have h2 : (a :: t).Perm (a :: t.getD k 0 :: t.eraseIdx k) := h1.cons a
      refine h2.trans ?_
      have := List.Perm.swap (t.getD k 0) a (t.eraseIdx k)
      simpa using this

theorem swStep_measure (n : Nat) (s : SWState) (c : Nat)
    (h : s.active ≠ []) :
    (n - (swStep n s c).cursor) + (swStep n s c).active.length <
      (n - s.cursor) + s.active.length := by
  have hlen : 0 < s.active.length := List.length_pos.2 h
  have hk : c % s.active.length < s.active.length := Nat.mod_lt _ hlen
  have herase : (s.active.eraseIdx (c % s.active.length)).length =
      s.active.length - 1 := by
    rw [List.length_eraseIdx]
    simp [hk]
  rw [swStep, if_neg h]
  by_cases hg : (s.active.eraseIdx (c % s.active.length)).length <
      maxConcurrentRequests ∧ s.cursor < n
  · rw [if_pos hg]
    simp only [List.length_append, List.length_cons, List.length_nil, herase]
    omega
  · rw [if_neg hg]
    simp only [herase]
    omega

theorem swInv_seed (n : Nat) : SWInv n (swSeed n) := by
  refine ⟨?_, ?_, ?_, ?_⟩
  · simp [swSeed]
  · simp [swSeed]
  · intro hlt
    simp only [swSeed, ne_eq]
    intro hcon
    have := congrArg List.length hcon
    simp only [List.length_range, List.length_nil, maxConcurrentRequests]
      at this
    simp only [swSeed, maxConcurrentRequests] at hlt
    omega
  · simp [swSeed]

theorem swInv_step (n : Nat) (s : SWState) (c : Nat) (h : SWInv n s)
    (hne : s.active ≠ []) : SWInv n (swStep n s c) := by
  obtain ⟨hcap, hcn, hidle, hperm⟩ := h
  have hlen : 0 < s.active.length := List.length_pos.2 hne
  have hk : c % s.active.length < s.active.length := Nat.mod_lt _ hlen
  have herase : (s.active.eraseIdx (c % s.active.length)).length =
      s.active.length - 1 := by
    rw [List.length_eraseIdx]
    simp [hk]
  have hactperm : s.active.Perm
      (s.active.getD (c % s.active.length) 0 ::
        s.active.eraseIdx (c % s.active.length)) :=
    perm_getD_cons_eraseIdx s.active _ hk
  rw [swStep, if_neg hne]
  by_cases hg : (s.active.eraseIdx (c % s.active.length)).length <
      maxConcurrentRequests ∧ s.cursor < n
  · rw [if_pos hg]
    refine ⟨?_, ?_, ?_, ?_⟩
    · simp only [List.length_append, List.length_cons, List.length_nil,
        herase]
      omega
    · exact hg.2
    · intro _
      simp
    · simp only [List.range_succ]
      have step1 : (s.completed ++
            [s.active.getD (c % s.active.length) 0]) ++
            (s.active.eraseIdx (c % s.active.length) ++ [s.cursor]) =
          ((s.completed ++ (s.active.getD (c % s.active.length) 0 ::
            s.active.eraseIdx (c % s.active.length))) ++ [s.cursor]) := by
        simp
      rw [step1]
      refine List.Perm.append ?_ (List.Perm.refl _)
      exact ((hactperm.symm.append_left s.completed).trans hperm)
  · rw [if_neg hg]
    have hcur : s.cursor = n := by
      rw [herase] at hg
      push_neg at hg
      by_contra hcon
      have hlt : s.cursor < n := Nat.lt_of_le_of_ne hcn hcon
      have := hg (by simp [maxConcurrentRequests] at hcap ⊢; omega)
      omega
    refine ⟨?_, ?_, ?_, ?_⟩
    · rw [herase]; omega
    · exact hcn
    · intro hlt
      rw [hcur] at hlt
      exact absurd hlt (lt_irrefl n)
    · have step1 : (s.completed ++
            [s.active.getD (c % s.active.length) 0]) ++
            s.active.eraseIdx (c % s.active.length) =
          s.completed ++ (s.active.getD (c % s.active.length) 0 ::
            s.active.eraseIdx (c % s.active.length)) := by
        simp
      rw [step1]
      exact (hactperm.symm.append_left s.completed).trans hperm

theorem swReach_inv (n : Nat) (s : SWState) (h : SWReach n s) : SWInv n s := by
  induction h with
  | seed => exact swInv_seed n
  | step s c hs hne ih => exact swInv_step n s c ih hne

theorem unclaimed_eq_cons (n c : Nat) (h : c < n) :
    unclaimed n c = c :: unclaimed n (c + 1) := by
  have hnc : n - c = (n - (c + 1)) + 1 := by omega
  rw [unclaimed, hnc, List.range'_succ, unclaimed]

theorem unclaimed_eq_nil (n c : Nat) (h : n ≤ c) : unclaimed n c = [] := by
  rw [unclaimed, Nat.sub_eq_zero_of_le h]
  rfl

theorem pendingIdx_seed (n : Nat) : pendingIdx n (swSeed n) = List.range n := by
  rw [pendingIdx, swSeed, unclaimed]
  simp only [List.range_eq_range']
  have := List.range'_append 0 (min maxConcurrentRequests n)
    (n - min maxConcurrentRequests n) 1
  simp only [Nat.one_mul, Nat.zero_add] at this
  rw [this]
  congr 1
  omega

/-- A settlement step moves exactly one pending position (the settling
one) out of the pending multiset. -/
theorem pendingIdx_step (n : Nat) (s : SWState) (c : Nat) (hinv : SWInv n s)
    (hne : s.active ≠ []) :
    (pendingIdx n s).Perm
      (s.active.getD (c % s.active.length) 0 ::
        pendingIdx n (swStep n s c)) := by
  obtain ⟨hcap, hcn, _, _⟩ := hinv
  have hlen : 0 < s.active.length := List.length_pos.2 hne
  have hk : c % s.active.length < s.active.length := Nat.mod_lt _ hlen
  have herase : (s.active.eraseIdx (c % s.active.length)).length =
      s.active.length - 1 := by
    rw [List.length_eraseIdx]
    simp [hk]
  have hactperm : s.active.Perm
      (s.active.getD (c % s.active.length) 0 ::
        s.active.eraseIdx (c % s.active.length)) :=
    perm_getD_cons_eraseIdx s.active _ hk
  rw [swStep, if_neg hne]
  by_cases hg : (s.active.eraseIdx (c % s.active.length)).length <
      maxConcurrentRequests ∧ s.cursor < n
  · rw [if_pos hg]
    rw [pendingIdx, pendingIdx]
    simp only
    rw [unclaimed_eq_cons n s.cursor hg.2]
    refine (hactperm.append
      (List.Perm.refl (s.cursor :: unclaimed n (s.cursor + 1)))).trans ?_
    simp only [List.cons_append]
    refine List.Perm.cons _ ?_
    have h1 : (s.active.eraseIdx (c % s.active.length)) ++
        s.cursor :: unclaimed n (s.cursor + 1) =
        (s.active.eraseIdx (c % s.active.length)) ++
        ([s.cursor] ++ unclaimed n (s.cursor + 1)) := by simp
    have h2 : (s.active.eraseIdx (c % s.active.length) ++ [s.cursor]) ++
        unclaimed n (s.cursor + 1) =
        (s.active.eraseIdx (c % s.active.length)) ++
        ([s.cursor] ++ unclaimed n (s.cursor + 1)) := by simp
    rw [h1, ← h2]
  · rw [if_neg hg]
    have hcur : s.cursor = n := by
      rw [herase] at hg
      push_neg at hg
      by_contra hcon
      have hlt : s.cursor < n := Nat.lt_of_le_of_ne hcn hcon
      have := hg (by simp [maxConcurrentRequests] at hcap ⊢; omega)
      omega
    rw [pendingIdx, pendingIdx]
    simp only
    rw [unclaimed_eq_nil n s.cursor (le_of_eq hcur.symm)]
    simpa using hactperm

theorem swRun_state_inv (env : Env) (ids : List String) (s : SWState)
    (m : StatusMap) (sched : List Nat) (hinv : SWInv ids.length s) :
    SWInv ids.length (swRun env ids s m sched).2 ∧
      (swRun env ids s m sched).2.active = [] := by
  induction s, m, sched using swRun.induct env ids with
  | case1 s m sched h =>
    rw [swRun, dif_pos h]
    exact ⟨hinv, h⟩
  | case2 s m sched h ih =>
    rw [swRun, dif_neg h]
    exact ih (swInv_step ids.length s (sched.headD 0) hinv h)

theorem swRun_cursor_end (env : Env) (ids : List String) (s : SWState)
    (m : StatusMap) (sched : List Nat) (hinv : SWInv ids.length s) :
    (swRun env ids s m sched).2.cursor = ids.length := by
  obtain ⟨hinv', hnil⟩ := swRun_state_inv env ids s m sched hinv
  obtain ⟨_, hle, hidle, _⟩ := hinv'
  by_contra hcon
  exact hidle (Nat.lt_of_le_of_ne hle hcon) hnil

theorem swRun_completed (env : Env) (ids : List String) (s : SWState)
    (m : StatusMap) (sched : List Nat) (hinv : SWInv ids.length s) :
    (swRun env ids s m sched).2.completed.Perm
      (s.completed ++ pendingIdx ids.length s) := by
  induction s, m, sched using swRun.induct env ids with
  | case1 s m sched h =>
    rw [swRun, dif_pos h]
    obtain ⟨_, hle, hidle, _⟩ := hinv
    have hcur : ids.length ≤ s.cursor := by
      by_contra hcon
      exact hidle (Nat.lt_of_not_le hcon) h
    rw [pendingIdx, h, unclaimed_eq_nil _ _ hcur]
    simp
  | case2 s m sched h ih =>
    rw [swRun, dif_neg h]
    have hinv' := swInv_step ids.length s (sched.headD 0) hinv h
    refine (ih hinv').trans ?_
    have hstepc : (swStep ids.length s (sched.headD 0)).completed =
        s.completed ++ [s.active.getD ((sched.headD 0) % s.active.length) 0]
        := by
      rw [swStep, if_neg h]
      by_cases hg : (s.active.eraseIdx
          ((sched.headD 0) % s.active.length)).length <
          maxConcurrentRequests ∧ s.cursor < ids.length
      · rw [if_pos hg]
      · rw [if_neg hg]
    rw [hstepc]
    have hpend := pendingIdx_step ids.length s (sched.headD 0) hinv h
    have heq : (s.completed ++
          [s.active.getD ((sched.headD 0) % s.active.length) 0]) ++
          pendingIdx ids.length (swStep ids.length s (sched.headD 0)) =
        s.completed ++
          (s.active.getD ((sched.headD 0) % s.active.length) 0 ::
            pendingIdx ids.length (swStep ids.length s (sched.headD 0))) := by
      simp
    rw [heq]
    exact (hpend.symm).append_left s.completed

theorem swRun_mapGet (env : Env) (ids : List String) (s : SWState)
    (m : StatusMap) (sched : List Nat) (hinv : SWInv ids.length s)
    (k : String) :
    mapGet (swRun env ids s m sched).1 k =
      if k ∈ (pendingIdx ids.length s).map (fun i => ids.getD i "") then
        some (fetchDeviceStatus env k)
      else mapGet m k := by
  induction s, m, sched using swRun.induct env ids with
  | case1 s m sched h =>
    rw [swRun, dif_pos h]
    obtain ⟨_, hle, hidle, _⟩ := hinv
    have hcur : ids.length ≤ s.cursor := by
      by_contra hcon
      exact hidle (Nat.lt_of_not_le hcon) h
    rw [pendingIdx, h, unclaimed_eq_nil _ _ hcur]
    simp
  | case2 s m sched h ih =>
    rw [swRun, dif_neg h]
    have hinv' := swInv_step ids.length s (sched.headD 0) hinv h
    rw [ih hinv']
    have hpend := pendingIdx_step ids.length s (sched.headD 0) hinv h
    have hmem : k ∈ (pendingIdx ids.length s).map (fun i => ids.getD i "") ↔
        (k = ids.getD (s.active.getD ((sched.headD 0) % s.active.length) 0) ""
          ∨ k ∈ (pendingIdx ids.length
            (swStep ids.length s (sched.headD 0))).map
            (fun i => ids.getD i "")) := by
      rw [(hpend.map (fun i => ids.getD i "")).mem_iff]
      simp
    by_cases h1 : k ∈ (pendingIdx ids.length
        (swStep ids.length s (sched.headD 0))).map (fun i => ids.getD i "")
    · rw [if_pos h1, if_pos (hmem.2 (Or.inr h1))]
    · rw [if_neg h1]
      by_cases h2 : k =
          ids.getD (s.active.getD ((sched.headD 0) % s.active.length) 0) ""
      · rw [if_pos (hmem.2 (Or.inl h2)), h2, mapGet_mapSet_self]
      · rw [mapGet_mapSet_ne _ _ _ _ h2,
          if_neg (fun hc => (hmem.1 hc).elim h2 h1)]

theorem range_map_getD (ids : List String) :
    (List.range ids.length).map (fun i => ids.getD i "") = ids := by
  refine List.ext_getElem ?_ ?_
  · simp
  · intro j h1 h2
    simp only [List.getElem_map, List.getElem_range]
    exact List.getD_eq_getElem ids "" (by simpa using h2)

theorem four_run_mapGet (env : Env) (ids : List String) (sched : List Nat)
    (k : String) :
    mapGet (swRun env ids (swSeed ids.length) [] sched).1 k =
      if k ∈ ids then some (fetchDeviceStatus env k) else none := by
  rw [swRun_mapGet env ids _ [] sched (swInv_seed ids.length) k,
    pendingIdx_seed, range_map_getD]
  rcases h : mapGet ([] : StatusMap) k with _ | v
  · rfl
  · simp [mapGet] at h

theorem four_run_completed (env : Env) (ids : List String) (sched : List Nat) :
    (swRun env ids (swSeed ids.length) [] sched).2.completed.Perm
      (List.range ids.length) := by
  have := swRun_completed env ids (swSeed ids.length) [] sched
    (swInv_seed ids.length)
  rw [pendingIdx_seed] at this
  simpa [swSeed] using this

theorem nodup_mapKeys_mapSet (m : StatusMap) (k : String) (v : Bool)
    (h : (mapKeys m).Nodup) : (mapKeys (mapSet m k v)).Nodup := by
  rw [mapKeys_mapSet]
  by_cases hk : k ∈ mapKeys m
  · rw [if_pos hk]; exact h
  · rw [if_neg hk]
    simp [List.nodup_append, h, hk]

theorem swRun_keys_nodup (env : Env) (ids : List String) (s : SWState)
    (m : StatusMap) (sched : List Nat) (h : (mapKeys m).Nodup) :
    (mapKeys (swRun env ids s m sched).1).Nodup := by
  induction s, m, sched using swRun.induct env ids with
  | case1 s m sched hnil =>
    rw [swRun, dif_pos hnil]
    exact h
  | case2 s m sched hnil ih =>
    rw [swRun, dif_neg hnil]
    exact ih (nodup_mapKeys_mapSet _ _ _ h)

theorem four_run_keys_nodup (env : Env) (ids : List String)
    (sched : List Nat) :
    (mapKeys (swRun env ids (swSeed ids.length) [] sched).1).Nodup :=
  swRun_keys_nodup env ids _ [] sched (by simp)

theorem four_run_mem_keys (env : Env) (ids : List String) (sched : List Nat)
    (k : String) :
    k ∈ mapKeys (swRun env ids (swSeed ids.length) [] sched).1 ↔ k ∈ ids := by
  rw [← mapGet_isSome_iff, four_run_mapGet]
  by_cases h : k ∈ ids
  · simp [h]
  · simp [h]

theorem isInit_refl (l : List α) : IsInit l l := ⟨[], by simp⟩

theorem isInit_nil (l : List α) : IsInit [] l := ⟨l, rfl⟩

theorem isInit_of_isInit_nil (p : List α) (h : IsInit p []) : p = [] := by
  rcases h with ⟨q, hq⟩
  exact List.append_eq_nil.1 hq |>.1

theorem isInit_append_cases (p a b : List α) (h : IsInit p (a ++ b)) :
    IsInit p a ∨ ∃ q, p = a ++ q ∧ IsInit q b := by
  induction a generalizing p with
  | nil =>
    right
    exact ⟨p, by simp, h⟩
  | cons x a ih =>
    cases p with
    | nil => exact Or.inl (isInit_nil _)
    | cons y p =>
      rcases h with ⟨q, hq⟩
      rw [List.cons_append, List.cons_append] at hq
      have hx : y = x := (List.cons.injEq _ _ _ _ ▸ hq).1
      have hrest : p ++ q = a ++ b := (List.cons.injEq _ _ _ _ ▸ hq).2
      rcases ih p ⟨q, hrest⟩ with h1 | ⟨q', hq', hinit⟩
      · left
        rcases h1 with ⟨r, hr⟩
        exact ⟨r, by rw [hx, List.cons_append, hr]⟩
      · right
        exact ⟨q', by rw [hx, List.cons_append, hq'], hinit⟩

theorem isInit_map (f : α → β) (p : List α) (q : List β)
    (h : IsInit q (p.map f)) : ∃ p', IsInit p' p ∧ q = p'.map f := by
  induction p generalizing q with
  | nil =>
    rw [List.map_nil] at h
    rw [isInit_of_isInit_nil q h]
    exact ⟨[], isInit_nil _, rfl⟩
  | cons x p ih =>
    cases q with
    | nil => exact ⟨[], isInit_nil _, rfl⟩
    | cons y q =>
      rcases h with ⟨r, hr⟩
      rw [List.map_cons, List.cons_append] at hr
      have hy : y = f x := (List.cons.injEq _ _ _ _ ▸ hr).1
      have hrest : q ++ r = p.map f := (List.cons.injEq _ _ _ _ ▸ hr).2
      rcases ih q ⟨r, hrest⟩ with ⟨p', hinit, hq⟩
      rcases hinit with ⟨t, ht⟩
      exact ⟨x :: p', ⟨t, by rw [List.cons_append, ht]⟩,
        by rw [List.map_cons, hy, hq]⟩

@[simp] theorem startCount_nil : startCount [] = 0 := rfl

@[simp] theorem finishCount_nil : finishCount [] = 0 := rfl

theorem startCount_append (a b : List FetchEvent) :
    startCount (a ++ b) = startCount a + startCount b :=
  List.countP_append _ a b

theorem finishCount_append (a b : List FetchEvent) :
    finishCount (a ++ b) = finishCount a + finishCount b :=
  List.countP_append _ a b

theorem startCount_map_start (l : List Nat) :
    startCount (l.map FetchEvent.start) = l.length := by
  rw [startCount, List.countP_map]
  simp [isStart, Function.comp]

theorem startCount_map_finish (l : List Nat) :
    startCount (l.map FetchEvent.finish) = 0 := by
  rw [startCount, List.countP_map]
  simp [isStart, Function.comp]

theorem finishCount_map_start (l : List Nat) :
    finishCount (l.map FetchEvent.start) = 0 := by
  rw [finishCount, List.countP_map]
  simp [isFinish, Function.comp]

theorem finishCount_map_finish (l : List Nat) :
    finishCount (l.map FetchEvent.finish) = l.length := by
  rw [finishCount, List.countP_map]
  simp [isFinish, Function.comp]

theorem startCount_le_length (tr : List FetchEvent) :
    startCount tr ≤ tr.length := List.countP_le_length _

theorem finishCount_le_length (tr : List FetchEvent) :
    finishCount tr ≤ tr.length := List.countP_le_length _

theorem seqTrace_counts (n : Nat) :
    startCount (seqTrace n) = n ∧ finishCount (seqTrace n) = n := by
  induction n with
  | zero => simp [seqTrace]
  | succ n ih =>
    rw [seqTrace, startCount_append, finishCount_append, ih.1, ih.2]
    constructor
    · simp [startCount, List.countP_cons, isStart]
    · simp [finishCount, List.countP_cons, isFinish]

/-- The sequential coordinator has at most one fetch outstanding at any
instant. -/
theorem seqTrace_serialized (n : Nat) (p : List FetchEvent)
    (h : IsInit p (seqTrace n)) :
    finishCount p ≤ startCount p ∧ startCount p ≤ finishCount p + 1 := by
  induction n generalizing p with
  | zero =>
    rw [seqTrace] at h
    rw [isInit_of_isInit_nil p h]
    simp
  | succ n ih =>
    rw [seqTrace] at h
    rcases isInit_append_cases p _ _ h with h1 | ⟨q, hq, hinit⟩
    · exact ih p h1
    · subst hq
      have hbase := seqTrace_counts n
      rw [startCount_append, finishCount_append, hbase.1, hbase.2]
      rcases hinit with ⟨r, hr⟩
      have hcases : q = [] ∨ q = [.start n] ∨ q = [.start n, .finish n] := by
        cases q with
        | nil => exact Or.inl rfl
        | cons e1 q =>
          rw [List.cons_append] at hr
          have he1 : e1 = .start n := (List.cons.injEq _ _ _ _ ▸ hr).1
          have hr2 : q ++ r = [FetchEvent.finish n] :=
            (List.cons.injEq _ _ _ _ ▸ hr).2
          cases q with
          | nil => exact Or.inr (Or.inl (by rw [he1]))
          | cons e2 q =>
            rw [List.cons_append] at hr2
            have he2 : e2 = .finish n := (List.cons.injEq _ _ _ _ ▸ hr2).1
            have hr3 : q ++ r = [] := (List.cons.injEq _ _ _ _ ▸ hr2).2
            have hq : q = [] := (List.append_eq_nil.1 hr3).1
            exact Or.inr (Or.inr (by rw [he1, he2, hq]))
      rcases hcases with rfl | rfl | rfl
      · simp
      · simp [startCount, finishCount, List.countP_cons, isStart, isFinish]
      · simp [startCount, finishCount, List.countP_cons, isStart, isFinish]

theorem unboundedTrace_startCount (perm : List Nat → List Nat) (n : Nat) :
    startCount (unboundedTrace perm n) = n := by
  rw [unboundedTrace, startCount_append, startCount_map_start,
    startCount_map_finish, List.length_range]
  omega

theorem range'_take : ∀ (m s k : Nat),
    (List.range' s m).take k = List.range' s (min k m) := by
  intro m
  induction m with
  | zero => intro s k; simp
  | succ m ih =>
    intro s k
    cases k with
    | zero => simp
    | succ k =>
      rw [List.range'_succ, List.take_succ_cons, ih, Nat.succ_min_succ,
        List.range'_succ]

theorem range'_drop : ∀ (m s k : Nat),
    (List.range' s m).drop k = List.range' (s + k) (m - k) := by
  intro m
  induction m with
  | zero => intro s k; simp
  | succ m ih =>
    intro s k
    cases k with
    | zero => simp
    | succ k =>
      rw [List.range'_succ, List.drop_succ_cons, ih]
      congr 1
      all_goals omega

theorem chunks5_of_ne_nil (l : List α) (h : l ≠ []) :
    chunks5 l = l.take batchSize :: chunks5 (l.drop batchSize) := by
  cases l with
  | nil => exact absurd rfl h
  | cons a t => exact chunks5_cons a t

theorem batchedTraceFrom_zero (perm : List Nat → List Nat) (s : Nat) :
    batchedTraceFrom perm s 0 = [] := by
  rw [batchedTraceFrom]
  simp

theorem batchedTraceFrom_succ (perm : List Nat → List Nat) (s m : Nat)
    (h : 0 < m) :
    batchedTraceFrom perm s m =
      batchBlock perm (List.range' s (min batchSize m)) ++
        batchedTraceFrom perm (s + batchSize) (m - batchSize) := by
  have hne : List.range' s m ≠ [] := by
    intro hcon
    have := congrArg List.length hcon
    rw [List.length_range'] at this
    simp at this
    omega
  rw [batchedTraceFrom, chunks5_of_ne_nil _ hne, List.map_cons,
    List.flatten_cons, range'_take, range'_drop]
  rfl

theorem isInit_length_le (p l : List α) (h : IsInit p l) :
    p.length ≤ l.length := by
  rcases h with ⟨q, hq⟩
  have := congrArg List.length hq
  rw [List.length_append] at this
  omega

theorem isInit_subset (p l : List α) (h : IsInit p l) :
    ∀ e ∈ p, e ∈ l := by
  rcases h with ⟨q, hq⟩
  intro e he
  rw [← hq]
  exact List.mem_append.2 (Or.inl he)

theorem mem_batchBlock_start (perm : List Nat → List Nat) (b : List Nat)
    (i : Nat) : FetchEvent.start i ∈ batchBlock perm b ↔ i ∈ b := by
  rw [batchBlock, List.mem_append]
  simp [List.mem_map, isStart]

theorem mem_batchBlock_finish (perm : List Nat → List Nat) (b : List Nat)
    (j : Nat) : FetchEvent.finish j ∈ batchBlock perm b ↔ j ∈ perm b := by
  rw [batchBlock, List.mem_append]
  simp [List.mem_map]

theorem batchBlock_counts (perm : List Nat → List Nat) (b : List Nat)
    (hperm : (perm b).Perm b) :
    startCount (batchBlock perm b) = b.length ∧
      finishCount (batchBlock perm b) = b.length := by
  rw [batchBlock, startCount_append, finishCount_append,
    startCount_map_start, startCount_map_finish, finishCount_map_start,
    finishCount_map_finish, hperm.length_eq]
  omega

theorem batchBlock_init_counts (perm : List Nat → List Nat) (b : List Nat)
    (p : List FetchEvent) (hlen : b.length ≤ batchSize)
    (hperm : (perm b).Perm b) (h : IsInit p (batchBlock perm b)) :
    finishCount p ≤ startCount p ∧
      startCount p ≤ finishCount p + batchSize := by
  rcases isInit_append_cases p _ _ h with h1 | ⟨q, hq, hinit⟩
  · rcases isInit_map _ _ _ h1 with ⟨b', hb', rfl⟩
    rw [startCount_map_start, finishCount_map_start]
    have hle : b'.length ≤ b.length := by
      have := isInit_length_le b' b hb'
      omega
    omega
  · rcases isInit_map _ _ _ hinit with ⟨f', hf', rfl⟩
    subst hq
    rw [startCount_append, finishCount_append, startCount_map_start,
      finishCount_map_start, startCount_map_finish, finishCount_map_finish]
    have h1 : f'.length ≤ (perm b).length := by
      have := isInit_length_le f' (perm b) hf'
      omega
    have h2 : (perm b).length = b.length := hperm.length_eq
    omega

/-- The batched coordinator keeps at most `batchSize` fetches outstanding
at every instant: along every initial segment of its trace, settlements
never outnumber issues, and issues exceed settlements by at most 5. -/
theorem batchedTraceFrom_bound (perm : List Nat → List Nat)
    (hperm : ∀ b, (perm b).Perm b) :
    ∀ (m s : Nat) (p : List FetchEvent),
      IsInit p (batchedTraceFrom perm s m) →
      finishCount p ≤ startCount p ∧
        startCount p ≤ finishCount p + batchSize := by
  intro m
  induction m using Nat.strong_induction_on with
  | _ m ih =>
    intro s p hp
    rcases Nat.eq_zero_or_pos m with rfl | hpos
    · rw [batchedTraceFrom_zero] at hp
      rw [isInit_of_isInit_nil p hp]
      simp
    · rw [batchedTraceFrom_succ perm s m hpos] at hp
      rcases isInit_append_cases p _ _ hp with h1 | ⟨q, hq, hinit⟩
      · refine batchBlock_init_counts perm _ p ?_ (hperm _) h1
        rw [List.length_range']
        exact Nat.min_le_left _ _
      · subst hq
        have hlt : m - batchSize < m := by
          simp only [batchSize]
          omega
        have hq := ih (m - batchSize) hlt (s + batchSize) q hinit
        have hb := batchBlock_counts perm (List.range' s (min batchSize m))
          (hperm _)
        rw [startCount_append, finishCount_append, hb.1, hb.2]
        omega

/-- No fetch of a later group is issued before every fetch of every
earlier group has settled: whenever `start i` has occurred by some
instant and `j` belongs to an earlier group of 5, `finish j` has already
occurred by the same instant. -/
theorem batchedTraceFrom_order (perm : List Nat → List Nat)
    (hperm : ∀ b, (perm b).Perm b) :
    ∀ (m s : Nat), batchSize ∣ s → ∀ (p : List FetchEvent),
      IsInit p (batchedTraceFrom perm s m) →
      ∀ i j, FetchEvent.start i ∈ p → s ≤ j →
        j / batchSize < i / batchSize → j < s + m →
        FetchEvent.finish j ∈ p := by
  intro m
  induction m using Nat.strong_induction_on with
  | _ m ih =>
    intro s hdvd p hp i j hstart hsj hdiv hjm
    rcases Nat.eq_zero_or_pos m with rfl | hpos
    · rw [batchedTraceFrom_zero] at hp
      rw [isInit_of_isInit_nil p hp] at hstart
      simp at hstart
    · rw [batchedTraceFrom_succ perm s m hpos] at hp
      have hblock_contra : FetchEvent.start i ∈
          batchBlock perm (List.range' s (min batchSize m)) → False := by
        intro hsb
        have hib := (mem_batchBlock_start _ _ _).1 hsb
        obtain ⟨k, hk, hik⟩ := List.mem_range'.1 hib
        simp only [batchSize] at hdvd hdiv hk hik
        have hmin : k < 5 := lt_of_lt_of_le hk (Nat.min_le_left _ _)
        omega
      rcases isInit_append_cases p _ _ hp with h1 | ⟨q, hq, hinit⟩
      · exact absurd (isInit_subset _ _ h1 _ hstart) hblock_contra
      · subst hq
        rcases List.mem_append.1 hstart with hsb | hsq
        · exact absurd hsb hblock_contra
        · by_cases hm : m ≤ batchSize
          · exfalso
            have : m - batchSize = 0 := by omega
            rw [this, batchedTraceFrom_zero] at hinit
            rw [isInit_of_isInit_nil q hinit] at hsq
            simp at hsq
          · push_neg at hm
            by_cases hj5 : j < s + batchSize
            · refine List.mem_append.2 (Or.inl ?_)
              rw [mem_batchBlock_finish, (hperm _).mem_iff]
              refine List.mem_range'.2 ⟨j - s, ?_, ?_⟩
              · simp only [batchSize] at hm hj5 ⊢
                omega
              · omega
            · refine List.mem_append.2 (Or.inr ?_)
              have hdvd' : batchSize ∣ s + batchSize :=
                Nat.dvd_add hdvd dvd_rfl
              refine ih (m - batchSize) ?_ (s + batchSize)
                hdvd' q hinit i j hsq
                (by omega) hdiv (by omega)
              simp only [batchSize]
              omega

theorem batchedTraceFrom_startCount (perm : List Nat → List Nat) :
    ∀ (m s : Nat), startCount (batchedTraceFrom perm s m) = m := by
  intro m
  induction m using Nat.strong_induction_on with
  | _ m ih =>
    intro s
    rcases Nat.eq_zero_or_pos m with rfl | hpos
    · rw [batchedTraceFrom_zero]
      rfl
    · rw [batchedTraceFrom_succ perm s m hpos, startCount_append,
        batchBlock, startCount_append, startCount_map_start,
        startCount_map_finish, List.length_range']
      have hlt : m - batchSize < m := by
        simp only [batchSize]
        omega
      rw [ih (m - batchSize) hlt (s + batchSize)]
      simp only [batchSize]
      omega

theorem fetch_of_okTrue (env : Env) (d : String) (h : okTrue (env d)) :
    fetchDeviceStatus env d = true := by
  rcases h with ⟨resp, hr, hok, hb⟩
  rw [fetchDeviceStatus, hr]
  simp [hok, hb]

theorem fetch_of_failedOutcome (env : Env) (d : String)
    (h : failedOutcome (env d)) : fetchDeviceStatus env d = false := by
  rcases h with hr | ⟨resp, hr, hfail⟩
  · rw [fetchDeviceStatus, hr]
  · rw [fetchDeviceStatus, hr]
    rcases hfail with hok | hb
    · simp [hok]
    · rcases hok : resp.ok with _ | _
      · simp [hok]
      · simp [hok, hb]

/-- Every entry of the assembled map carries its key's fetch result, and
its key comes from the input list. -/
theorem entry_assemble (env : Env) (ids : List String) (p : String × Bool)
    (hp : p ∈ assemble env [] ids) :
    p.1 ∈ ids ∧ p.2 = fetchDeviceStatus env p.1 := by
  have hget := mapGet_eq_some_of_mem _ p (mapKeys_assemble_nodup env ids) hp
  rw [mapGet_assemble] at hget
  by_cases h : p.1 ∈ ids
  · rw [if_pos h] at hget
    exact ⟨h, (Option.some.injEq _ _ ▸ hget).symm⟩
  · rw [if_neg h] at hget
    simp [mapGet] at hget

theorem entry_sortedMap (m : StatusMap) (p : String × Bool)
    (hp : p ∈ sortedMap m) : p ∈ m := (sortedMap_perm m).mem_iff.1 hp

/-- Every entry of the sliding-window run's map carries its key's fetch
result, whatever the settlement order. -/
theorem entry_four (env : Env) (ids : List String) (sched : List Nat)
    (p : String × Bool)
    (hp : p ∈ (swRun env ids (swSeed ids.length) [] sched).1) :
    p.1 ∈ ids ∧ p.2 = fetchDeviceStatus env p.1 := by
  have hget := mapGet_eq_some_of_mem _ p (four_run_keys_nodup env ids sched) hp
  rw [four_run_mapGet] at hget
  by_cases h : p.1 ∈ ids
  · rw [if_pos h] at hget
    exact ⟨h, (Option.some.injEq _ _ ▸ hget).symm⟩
  · rw [if_neg h] at hget
    exact Option.noConfusion hget

theorem keysMatch_assemble (env : Env) (ids : List String) :
    keysMatch ids (assemble env [] ids) :=
  ⟨mapKeys_assemble_nodup env ids, mem_mapKeys_assemble env ids⟩

theorem keysMatch_sortedMap (ids : List String) (m : StatusMap)
    (h : keysMatch ids m) : keysMatch ids (sortedMap m) := by
  have hkeys : (mapKeys (sortedMap m)).Perm (mapKeys m) :=
    (sortedMap_perm m).map Prod.fst
  exact ⟨hkeys.symm.nodup h.1, fun k => hkeys.mem_iff.trans (h.2 k)⟩

theorem keysMatch_four (env : Env) (ids : List String) (sched : List Nat) :
    keysMatch ids (swRun env ids (swSeed ids.length) [] sched).1 :=
  ⟨four_run_keys_nodup env ids sched, four_run_mem_keys env ids sched⟩

theorem four_run_length (env : Env) (ids : List String) (sched : List Nat) :
    (swRun env ids (swSeed ids.length) [] sched).1.length =
      (dedupFirst ids).length := by
  have hperm : (mapKeys (swRun env ids (swSeed ids.length) [] sched).1).Perm
      (dedupFirst ids) := by
    refine (List.perm_ext_iff_of_nodup (four_run_keys_nodup env ids sched)
      (dedupFirst_nodup ids)).2 ?_
    intro k
    rw [four_run_mem_keys, mem_dedupFirst]
  have := hperm.length_eq
  rw [mapKeys, List.length_map] at this
  exact this

theorem keyLe_total : ∀ a b, keyLe a b = false → keyLe b a = true := by
  intro a b h
  simp [keyLe] at *
  omega

theorem keyLe_trans :
    ∀ a b c, keyLe a b = true → keyLe b c = true → keyLe a c = true := by
  intro a b c h1 h2
  simp [keyLe] at *
  omega

theorem sortedMap_keys_sorted (m : StatusMap) :
    SortedB keyLe (mapKeys (sortedMap m)) := by
  rw [mapKeys_sortedMap]
  exact sortedB_stableSort keyLe keyLe_total keyLe_trans (mapKeys m)

/-- C1 counterexample: against a backend whose fetch promise rejects, the
main-file `getDevicesOnlineStatusThree` returns a rejection instead of
resolving — the fetch sits outside the `try`, so the transport failure is
not absorbed and the claim "the returned promise always resolves" fails. -/
theorem C1_counterexample :
    getDevicesOnlineStatusThree (fun _ => .error ()) ["1"] = .error () :=
  three_error _ _ ⟨"1", by simp, rfl⟩

/-- C1 (amended): for `getDevicesOnlineStatusOne`, `Two`, `Four` and the
`part_000` variant of `Three`, the returned promise always resolves, every
failure being absorbed by the per-device fetch step; the main-file
`getDevicesOnlineStatusThree` absorbs non-success responses and parse
failures but propagates a transport rejection of `fetch` to the caller:
it resolves exactly when no fetch in the input rejects. -/
theorem C1_never_rejects_amended (env : Env) (ids : List String)
    (sched : List Nat) :
    (∃ m, getDevicesOnlineStatusOne env ids = .ok m) ∧
    (∃ m, getDevicesOnlineStatusTwo env ids = .ok m) ∧
    (∃ m, getDevicesOnlineStatusFour env ids sched = .ok m) ∧
    (∃ m, getDevicesOnlineStatusThreeAlt env ids = .ok m) ∧
    ((∀ d ∈ ids, env d ≠ .error ()) →
      ∃ m, getDevicesOnlineStatusThree env ids = .ok m) ∧
    ((∃ d ∈ ids, env d = .error ()) →
      getDevicesOnlineStatusThree env ids = .error ()) := by
  refine ⟨⟨_, rfl⟩, ⟨_, rfl⟩, ⟨_, rfl⟩, ⟨_, rfl⟩, ?_, three_error env ids⟩
  intro h
  exact ⟨_, three_ok env ids h⟩

/-- C1 witness: a concrete non-rejecting backend on which the amended
claim's conditional part fires. -/
theorem C1_witness :
    ∃ m, getDevicesOnlineStatusThree (fun _ => .ok ⟨true, some true⟩)
      ["1", "2"] = .ok m :=
  (C1_never_rejects_amended (fun _ => .ok ⟨true, some true⟩)
    ["1", "2"] []).2.2.2.2.1 (by intro d _; simp)

/-- C2 counterexample: with a rejecting backend the main-file
`getDevicesOnlineStatusThree` returns no map at all on the non-empty input
`["7", "8"]`, so it cannot return a map whose key set is `{"7", "8"}` —
the claim fails as stated "regardless of which individual fetches succeed
or fail". -/
theorem C2_counterexample :
    getDevicesOnlineStatusThree (fun _ => .error ()) ["7", "8"] =
      .error () :=
  three_error _ _ ⟨"7", by simp, rfl⟩

/-- C2 (amended): for every non-empty identifier list,
`getDevicesOnlineStatusOne`, `Two`, `Four` and the `part_000` variant of
`Three` return a map whose key set is exactly the set of input identifiers
(one entry each), regardless of which fetches succeed or fail; the
main-file `getDevicesOnlineStatusThree` does so provided no fetch rejects
at transport level (otherwise it rejects and returns no map). -/
theorem C2_key_set_amended (env : Env) (ids : List String)
    (sched : List Nat) (hne : ids ≠ []) :
    (∃ m, getDevicesOnlineStatusOne env ids = .ok m ∧ keysMatch ids m) ∧
    (∃ m, getDevicesOnlineStatusTwo env ids = .ok m ∧ keysMatch ids m) ∧
    (∃ m, getDevicesOnlineStatusFour env ids sched = .ok m ∧
      keysMatch ids m) ∧
    (∃ m, getDevicesOnlineStatusThreeAlt env ids = .ok m ∧
      keysMatch ids m) ∧
    ((∀ d ∈ ids, env d ≠ .error ()) →
      ∃ m, getDevicesOnlineStatusThree env ids = .ok m ∧ keysMatch ids m)
    := by
  refine ⟨⟨_, rfl, keysMatch_assemble env ids⟩,
    ⟨_, rfl, keysMatch_sortedMap ids _ (keysMatch_assemble env ids)⟩,
    ⟨_, rfl, keysMatch_sortedMap ids _ (keysMatch_four env ids sched)⟩,
    ⟨_, threeAlt_eq_assemble env ids,
      keysMatch_sortedMap ids _ (keysMatch_assemble env ids)⟩, ?_⟩
  intro h
  exact ⟨_, three_ok env ids h,
    keysMatch_sortedMap ids _ (keysMatch_assemble env ids)⟩

/-- C2 witness: the amended claim at a concrete backend and input. -/
theorem C2_witness :
    ∃ m, getDevicesOnlineStatusOne (fun _ => .ok ⟨true, some true⟩)
      ["3", "1"] = .ok m ∧ keysMatch ["3", "1"] m :=
  (C2_key_set_amended (fun _ => .ok ⟨true, some true⟩) ["3", "1"] []
    (by simp)).1

/-- C3 counterexample: identifiers `["1", "2", "3"]` against a backend
that rejects the fetch for `"2"` and reports `true` for the others: the
main-file `getDevicesOnlineStatusThree` rejects instead of returning a map
in which only `"2"` is `false`. -/
theorem C3_counterexample :
    getDevicesOnlineStatusThree
      (fun d => if d = "2" then .error () else .ok ⟨true, some true⟩)
      ["1", "2", "3"] = .error () :=
  three_error _ _ ⟨"2", by simp, by simp⟩

/-- C3 (amended): if every backend call succeeds with body `true`, every
coordinator resolves with an all-`true` map. If the call for exactly one
identifier `x` fails while the others succeed with `true`, then
`getDevicesOnlineStatusOne`, `Two`, `Four` and the `part_000` variant of
`Three` return a map whose value is `false` exactly at `x`; the main-file
`getDevicesOnlineStatusThree` does the same when `x`'s failure is a
non-success response or a parse failure, but rejects when it is a
transport rejection. -/
theorem C3_failure_localisation_amended (env : Env) (ids : List String)
    (sched : List Nat) (x : String) :
    ((∀ d ∈ ids, okTrue (env d)) →
      (∃ m, getDevicesOnlineStatusOne env ids = .ok m ∧ allValuesTrue m) ∧
      (∃ m, getDevicesOnlineStatusTwo env ids = .ok m ∧ allValuesTrue m) ∧
      (∃ m, getDevicesOnlineStatusFour env ids sched = .ok m ∧
        allValuesTrue m) ∧
      (∃ m, getDevicesOnlineStatusThreeAlt env ids = .ok m ∧
        allValuesTrue m) ∧
      (∃ m, getDevicesOnlineStatusThree env ids = .ok m ∧
        allValuesTrue m)) ∧
    (x ∈ ids → failedOutcome (env x) →
      (∀ d ∈ ids, d ≠ x → okTrue (env d)) →
      (∃ m, getDevicesOnlineStatusOne env ids = .ok m ∧ onlyFalseAt x m) ∧
      (∃ m, getDevicesOnlineStatusTwo env ids = .ok m ∧ onlyFalseAt x m) ∧
      (∃ m, getDevicesOnlineStatusFour env ids sched = .ok m ∧
        onlyFalseAt x m) ∧
      (∃ m, getDevicesOnlineStatusThreeAlt env ids = .ok m ∧
        onlyFalseAt x m) ∧
      (env x ≠ .error () →
        ∃ m, getDevicesOnlineStatusThree env ids = .ok m ∧
          onlyFalseAt x m) ∧
      (env x = .error () →
        getDevicesOnlineStatusThree env ids = .error ())) := by
  constructor
  · intro hall
    have hvals : ∀ p : String × Bool, p.1 ∈ ids ∧
        p.2 = fetchDeviceStatus env p.1 → p.2 = true := by
      rintro p ⟨hmem, hval⟩
      rw [hval]
      exact fetch_of_okTrue env p.1 (hall p.1 hmem)
    have hassem : allValuesTrue (assemble env [] ids) := by
      intro p hp
      exact hvals p (entry_assemble env ids p hp)
    have hsorted : allValuesTrue (sortedMap (assemble env [] ids)) := by
      intro p hp
      exact hassem p (entry_sortedMap _ p hp)
    have hnoerr : ∀ d ∈ ids, env d ≠ .error () := by
      intro d hd
      rcases hall d hd with ⟨resp, hr, _, _⟩
      rw [hr]
      simp
    refine ⟨⟨_, rfl, hassem⟩, ⟨_, rfl, hsorted⟩, ?_,
      ⟨_, threeAlt_eq_assemble env ids, hsorted⟩,
      ⟨_, three_ok env ids hnoerr, hsorted⟩⟩
    refine ⟨_, rfl, ?_⟩
    intro p hp
    exact hvals p (entry_four env ids sched p
      (entry_sortedMap _ p hp))
  · intro hx hfx hother
    have hvals : ∀ p : String × Bool, p.1 ∈ ids ∧
        p.2 = fetchDeviceStatus env p.1 → (p.2 = false ↔ p.1 = x) := by
      rintro p ⟨hmem, hval⟩
      by_cases hpx : p.1 = x
      · rw [hval, hpx]
        simp [fetch_of_failedOutcome env x hfx]
      · rw [hval]
        simp [fetch_of_okTrue env p.1 (hother p.1 hmem hpx), hpx]
    have hassem : onlyFalseAt x (assemble env [] ids) := by
      intro p hp
      exact hvals p (entry_assemble env ids p hp)
    have hsorted : onlyFalseAt x (sortedMap (assemble env [] ids)) := by
      intro p hp
      exact hassem p (entry_sortedMap _ p hp)
    refine ⟨⟨_, rfl, hassem⟩, ⟨_, rfl, hsorted⟩, ?_,
      ⟨_, threeAlt_eq_assemble env ids, hsorted⟩, ?_, ?_⟩
    · refine ⟨_, rfl, ?_⟩
      intro p hp
      exact hvals p (entry_four env ids sched p (entry_sortedMap _ p hp))
    · intro hxnr
      have hnoerr : ∀ d ∈ ids, env d ≠ .error () := by
        intro d hd
        by_cases hdx : d = x
        · rw [hdx]; exact hxnr
        · rcases hother d hd hdx with ⟨resp, hr, _, _⟩
          rw [hr]
          simp
      exact ⟨_, three_ok env ids hnoerr, hsorted⟩
    · intro hxe
      exact three_error env ids ⟨x, hx, hxe⟩

/-- C3 witness: a concrete backend failing only for `"2"` with a
non-success response; the sequential coordinator localises the `false`. -/
theorem C3_witness :
    ∃ m, getDevicesOnlineStatusOne
      (fun d => if d = "2" then .ok ⟨false, none⟩ else .ok ⟨true, some true⟩)
      ["1", "2", "3"] = .ok m ∧ onlyFalseAt "2" m :=
  ((C3_failure_localisation_amended
      (fun d => if d = "2" then .ok ⟨false, none⟩ else .ok ⟨true, some true⟩)
      ["1", "2", "3"] [] "2").2
    (by simp)
    (Or.inr ⟨⟨false, none⟩, by simp, Or.inl rfl⟩)
    (by
      intro d hd hdx
      refine ⟨⟨true, some true⟩, ?_, rfl, rfl⟩
      simp [hdx])).1

theorem swStep_completed_eq (n : Nat) (s : SWState) (c : Nat)
    (hne : s.active ≠ []) :
    (swStep n s c).completed =
      s.completed ++ [s.active.getD (c % s.active.length) 0] := by
  rw [swStep, if_neg hne]
  by_cases hg : (s.active.eraseIdx (c % s.active.length)).length <
      maxConcurrentRequests ∧ s.cursor < n
  · rw [if_pos hg]
  · rw [if_neg hg]

theorem swStep_cursor_eq (n : Nat) (s : SWState) (c : Nat)
    (hinv : SWInv n s) (hne : s.active ≠ []) :
    (swStep n s c).cursor =
      if s.cursor < n then s.cursor + 1 else s.cursor := by
  obtain ⟨hcap, _, _, _⟩ := hinv
  have hlen : 0 < s.active.length := List.length_pos.2 hne
  have hk : c % s.active.length < s.active.length := Nat.mod_lt _ hlen
  have herase : (s.active.eraseIdx (c % s.active.length)).length =
      s.active.length - 1 := by
    rw [List.length_eraseIdx]
    simp [hk]
  rw [swStep, if_neg hne]
  by_cases hc : s.cursor < n
  · rw [if_pos ⟨by
      rw [herase]
      simp only [maxConcurrentRequests] at hcap ⊢
      omega, hc⟩, if_pos hc]
  · rw [if_neg (fun hcon => hc hcon.2), if_neg hc]

/-- C4: sliding-window invariants of `getDevicesOnlineStatusFour`. At
every reachable instant the number of in-flight requests is at most 5 and
the multiset of claimed positions (settled plus in-flight) is exactly
`0, …, cursor-1`, each claimed by exactly one chain. Every settlement step
removes exactly one in-flight request (one decrement per claim), never
rewinds the cursor, and — while unclaimed identifiers remain — admits the
next identifier in that very step. Over a full run, every input position
is fetched exactly once, for every settlement order. -/
theorem C4_sliding_window_invariants (n : Nat) (s : SWState) (c : Nat)
    (hreach : SWReach n s) (hne : s.active ≠ []) :
    s.active.length ≤ maxConcurrentRequests ∧
    (s.completed ++ s.active).Perm (List.range s.cursor) ∧
    s.cursor ≤ (swStep n s c).cursor ∧
    (swStep n s c).completed.length = s.completed.length + 1 ∧
    (s.cursor < n → (swStep n s c).cursor = s.cursor + 1) ∧
    (∀ (env : Env) (ids : List String) (sched : List Nat),
      ids.length = n →
      (swRun env ids (swSeed n) [] sched).2.completed.Perm
        (List.range n)) := by
  have hinv := swReach_inv n s hreach
  obtain ⟨hcap, hcn, hidle, hperm⟩ := hinv
  have hcur := swStep_cursor_eq n s c ⟨hcap, hcn, hidle, hperm⟩ hne
  refine ⟨hcap, hperm, ?_, ?_, ?_, ?_⟩
  · rw [hcur]
    by_cases hc : s.cursor < n
    · rw [if_pos hc]; omega
    · rw [if_neg hc]
  · rw [swStep_completed_eq n s c hne, List.length_append]
    rfl
  · intro hc
    rw [hcur, if_pos hc]
  · intro env ids sched hlen
    subst hlen
    exact four_run_completed env ids sched

/-- C4 witness: a concrete reachable state of a 6-element run, one
settlement step after seeding. -/
theorem C4_witness :
    (swStep 6 (swSeed 6) 1).active.length ≤ maxConcurrentRequests ∧
    ((swStep 6 (swSeed 6) 1).completed ++
      (swStep 6 (swSeed 6) 1).active).Perm
        (List.range (swStep 6 (swSeed 6) 1).cursor) :=
  let h := C4_sliding_window_invariants 6 (swStep 6 (swSeed 6) 1) 0
    (SWReach.step (swSeed 6) 1 SWReach.seed (by decide)) (by decide)
  ⟨h.1, h.2.1⟩

/-- C5: the batched coordinator `getDevicesOnlineStatusThree` partitions
its input into consecutive groups of 5 in input order (the last group may
be smaller): the groups flatten back to the input, and each group is
non-empty with at most 5 elements, all but the last having exactly 5.
Along every instant of every settlement order, settlements never outnumber
issued fetches and at most 5 fetches are outstanding; and no fetch of a
later group is issued before every fetch of each earlier group has
settled. -/
theorem C5_batched_groups (ids : List String)
    (perm : List Nat → List Nat) (hperm : ∀ b, (perm b).Perm b) :
    (chunks5 ids).flatten = ids ∧
    (∀ b ∈ chunks5 ids, b ≠ [] ∧ b.length ≤ batchSize) ∧
    (∀ b ∈ (chunks5 ids).dropLast, b.length = batchSize) ∧
    (∀ p, IsInit p (batchedTrace perm ids.length) →
      finishCount p ≤ startCount p ∧
        startCount p ≤ finishCount p + batchSize) ∧
    (∀ p, IsInit p (batchedTrace perm ids.length) →
      ∀ i j, FetchEvent.start i ∈ p → j / batchSize < i / batchSize →
        j < ids.length → FetchEvent.finish j ∈ p) := by
  refine ⟨chunks5_flatten ids, chunks5_length_le ids,
    chunks5_dropLast_length ids, ?_, ?_⟩
  · intro p hp
    exact batchedTraceFrom_bound perm hperm ids.length 0 p hp
  · intro p hp i j hi hdiv hj
    exact batchedTraceFrom_order perm hperm ids.length 0
      (Dvd.intro 0 rfl) p hp i j hi (Nat.zero_le j) hdiv
      (by omega)

/-- C5 witness: the identity settlement order on a 7-element input; the
full trace never has more than 5 outstanding fetches. -/
theorem C5_witness :
    finishCount (batchedTrace (fun b => b)
        (["a", "b", "c", "d", "e", "f", "g"] : List String).length) ≤
      startCount (batchedTrace (fun b => b)
        (["a", "b", "c", "d", "e", "f", "g"] : List String).length) ∧
    startCount (batchedTrace (fun b => b)
        (["a", "b", "c", "d", "e", "f", "g"] : List String).length) ≤
      finishCount (batchedTrace (fun b => b)
        (["a", "b", "c", "d", "e", "f", "g"] : List String).length) +
        batchSize :=
  (C5_batched_groups ["a", "b", "c", "d", "e", "f", "g"] (fun b => b)
    (fun b => List.Perm.refl b)).2.2.2.1 _ (isInit_refl _)

/-- C7: the sequential coordinator `getDevicesOnlineStatusOne` resolves
with its map in exactly first-occurrence input order — no sorting is
applied, and duplicates collapse to their first position — and its event
trace never has two fetches outstanding: position `i+1` is not issued
before position `i` settles. -/
theorem C7_sequential_order (env : Env) (ids : List String) :
    (∃ m, getDevicesOnlineStatusOne env ids = .ok m ∧
      mapKeys m = dedupFirst ids) ∧
    (∀ p, IsInit p (seqTrace ids.length) →
      finishCount p ≤ startCount p ∧ startCount p ≤ finishCount p + 1) :=
  ⟨⟨_, rfl, mapKeys_assemble_nil env ids⟩, seqTrace_serialized ids.length⟩

/-- C7 witness: a duplicated input keeps first-occurrence order. -/
theorem C7_witness :
    ∃ m, getDevicesOnlineStatusOne (fun _ => .ok ⟨true, some true⟩)
      ["2", "1", "2"] = .ok m ∧ mapKeys m = dedupFirst ["2", "1", "2"] :=
  (C7_sequential_order (fun _ => .ok ⟨true, some true⟩) ["2", "1", "2"]).1

/-- C8: if the backend answers every request with a non-success status
(whatever its body), every coordinator — the main-file Three included,
since a settled non-2xx response is absorbed even with the fetch outside
the `try` — resolves with a map sending every input identifier to
`false`. -/
theorem C8_all_non_success (env : Env) (ids : List String)
    (sched : List Nat)
    (h : ∀ d ∈ ids, ∃ b, env d = .ok ⟨false, b⟩) :
    (∃ m, getDevicesOnlineStatusOne env ids = .ok m ∧ allValuesFalse m ∧
      keysMatch ids m) ∧
    (∃ m, getDevicesOnlineStatusTwo env ids = .ok m ∧ allValuesFalse m ∧
      keysMatch ids m) ∧
    (∃ m, getDevicesOnlineStatusThree env ids = .ok m ∧ allValuesFalse m ∧
      keysMatch ids m) ∧
    (∃ m, getDevicesOnlineStatusThreeAlt env ids = .ok m ∧
      allValuesFalse m ∧ keysMatch ids m) ∧
    (∃ m, getDevicesOnlineStatusFour env ids sched = .ok m ∧
      allValuesFalse m ∧ keysMatch ids m) := by
  have hfail : ∀ d ∈ ids, fetchDeviceStatus env d = false := by
    intro d hd
    rcases h d hd with ⟨b, hb⟩
    exact fetch_of_failedOutcome env d (Or.inr ⟨⟨false, b⟩, hb, Or.inl rfl⟩)
  have hvals : ∀ p : String × Bool, p.1 ∈ ids ∧
      p.2 = fetchDeviceStatus env p.1 → p.2 = false := by
    rintro p ⟨hmem, hval⟩
    rw [hval]
    exact hfail p.1 hmem
  have hassem : allValuesFalse (assemble env [] ids) := fun p hp =>
    hvals p (entry_assemble env ids p hp)
  have hsorted : allValuesFalse (sortedMap (assemble env [] ids)) :=
    fun p hp => hassem p (entry_sortedMap _ p hp)
  have hnoerr : ∀ d ∈ ids, env d ≠ .error () := by
    intro d hd
    rcases h d hd with ⟨b, hb⟩
    rw [hb]
    simp
  have hkm := keysMatch_sortedMap ids _ (keysMatch_assemble env ids)
  refine ⟨⟨_, rfl, hassem, keysMatch_assemble env ids⟩,
    ⟨_, rfl, hsorted, hkm⟩,
    ⟨_, three_ok env ids hnoerr, hsorted, hkm⟩,
    ⟨_, threeAlt_eq_assemble env ids, hsorted, hkm⟩,
    ⟨_, rfl, ?_, keysMatch_sortedMap ids _ (keysMatch_four env ids sched)⟩⟩
  intro p hp
  exact hvals p (entry_four env ids sched p (entry_sortedMap _ p hp))

/-- C8 witness: a backend answering `429`-style non-success everywhere. -/
theorem C8_witness :
    ∃ m, getDevicesOnlineStatusThree (fun _ => .ok ⟨false, none⟩)
      ["4", "5"] = .ok m ∧ allValuesFalse m ∧ keysMatch ["4", "5"] m :=
  (C8_all_non_success (fun _ => .ok ⟨false, none⟩) ["4", "5"] []
    (fun d _ => ⟨none, rfl⟩)).2.2.1

/-- C9: on the empty identifier list every coordinator resolves with the
empty map and issues no fetch at all: the sequential and batched traces
are empty, the unbounded fan-out issues zero fetches, and
`getDevicesOnlineStatusFour` seeds `min(5, 0) = 0` admission chains and
still terminates. -/
theorem C9_empty_input (env : Env) (sched : List Nat)
    (perm : List Nat → List Nat) :
    getDevicesOnlineStatusOne env [] = .ok [] ∧
    getDevicesOnlineStatusTwo env [] = .ok [] ∧
    getDevicesOnlineStatusThree env [] = .ok [] ∧
    getDevicesOnlineStatusThreeAlt env [] = .ok [] ∧
    getDevicesOnlineStatusFour env [] sched = .ok [] ∧
    swSeed (List.length ([] : List String)) = ⟨0, [], []⟩ ∧
    seqTrace (List.length ([] : List String)) = [] ∧
    batchedTrace perm (List.length ([] : List String)) = [] ∧
    startCount (unboundedTrace perm 0) = 0 := by
  have hrun : swRun env [] (swSeed 0) [] sched = ([], swSeed 0) := by
    rw [swRun]
    simp [swSeed]
  refine ⟨rfl, rfl, ?_, ?_, ?_, ?_, rfl, ?_, ?_⟩
  · rw [getDevicesOnlineStatusThree]
    simp
    rfl
  · rw [threeAlt_eq_assemble]
    rfl
  · rw [getDevicesOnlineStatusFour]
    simp only [List.length_nil, hrun]
    rfl
  · simp [swSeed]
  · exact batchedTraceFrom_zero perm 0
  · exact unboundedTrace_startCount perm 0

/-- C10: with duplicate identifiers in the input, every coordinator still
issues one fetch per list position — the sequential, unbounded and batched
traces contain one `start` per position, and the sliding-window run
settles each position exactly once — while the returned map collapses
duplicates: its size is the number of distinct identifiers, not the input
length. -/
theorem C10_duplicate_identifiers (env : Env) (ids : List String)
    (sched : List Nat) (perm : List Nat → List Nat) :
    (∃ m, getDevicesOnlineStatusOne env ids = .ok m ∧
      m.length = (dedupFirst ids).length) ∧
    (∃ m, getDevicesOnlineStatusTwo env ids = .ok m ∧
      m.length = (dedupFirst ids).length) ∧
    ((∀ d ∈ ids, env d ≠ .error ()) →
      ∃ m, getDevicesOnlineStatusThree env ids = .ok m ∧
        m.length = (dedupFirst ids).length) ∧
    (∃ m, getDevicesOnlineStatusThreeAlt env ids = .ok m ∧
      m.length = (dedupFirst ids).length) ∧
    (∃ m, getDevicesOnlineStatusFour env ids sched = .ok m ∧
      m.length = (dedupFirst ids).length) ∧
    startCount (seqTrace ids.length) = ids.length ∧
    startCount (unboundedTrace perm ids.length) = ids.length ∧
    startCount (batchedTrace perm ids.length) = ids.length ∧
    (swRun env ids (swSeed ids.length) [] sched).2.completed.Perm
      (List.range ids.length) := by
  have hlen1 : (assemble env [] ids).length = (dedupFirst ids).length := by
    have := congrArg List.length (mapKeys_assemble_nil env ids)
    rw [mapKeys, List.length_map] at this
    exact this
  have hlen2 : (sortedMap (assemble env [] ids)).length =
      (dedupFirst ids).length := by
    rw [(sortedMap_perm _).length_eq, hlen1]
  have hlen4 : (sortedMap (swRun env ids (swSeed ids.length) []
      sched).1).length = (dedupFirst ids).length := by
    rw [(sortedMap_perm _).length_eq, four_run_length]
  refine ⟨⟨_, rfl, hlen1⟩, ⟨_, rfl, hlen2⟩, ?_,
    ⟨_, threeAlt_eq_assemble env ids, hlen2⟩, ⟨_, rfl, hlen4⟩,
    (seqTrace_counts ids.length).1, unboundedTrace_startCount perm _,
    batchedTraceFrom_startCount perm ids.length 0,
    four_run_completed env ids sched⟩
  intro h
  exact ⟨_, three_ok env ids h, hlen2⟩

/-- C10 witness: a triple with one duplicated identifier yields a
two-entry map from the batched coordinator. -/
theorem C10_witness :
    ∃ m, getDevicesOnlineStatusThree (fun _ => .ok ⟨true, some true⟩)
      ["6", "6", "7"] = .ok m ∧
      m.length = (dedupFirst ["6", "6", "7"]).length :=
  (C10_duplicate_identifiers (fun _ => .ok ⟨true, some true⟩)
    ["6", "6", "7"] [] (fun b => b)).2.2.1 (by intro d _; simp)

theorem stableSort_keys_312 (l : List String) (hnd : l.Nodup)
    (hmem : ∀ k, k ∈ l ↔ k ∈ (["3", "1", "2"] : List String)) :
    stableSort keyLe l = ["1", "2", "3"] := by
  have hperm : l.Perm ["3", "1", "2"] :=
    (List.perm_ext_iff_of_nodup hnd (by decide)).2 hmem
  have hsorted : SortedB keyLe (stableSort keyLe l) :=
    sortedB_stableSort keyLe keyLe_total keyLe_trans l
  have hp2 : (stableSort keyLe l).Perm ["1", "2", "3"] :=
    (stableSort_perm keyLe l).trans (hperm.trans (by decide))
  refine sortedB_perm_eq keyLe _ _ hp2 hsorted
    (by unfold SortedB; decide) ?_
  intro a ha b hb h1 h2
  have ha' : a ∈ (["1", "2", "3"] : List String) := hp2.mem_iff.1 ha
  have hb' : b ∈ (["1", "2", "3"] : List String) := hp2.mem_iff.1 hb
  simp only [List.mem_cons, List.not_mem_nil, or_false] at ha' hb'
  rcases ha' with rfl | rfl | rfl <;> rcases hb' with rfl | rfl | rfl <;>
    first
      | rfl
      | exact absurd h1 (by decide)
      | exact absurd h2 (by decide)

/-- C6: each concurrent coordinator that returns a map returns it with the
entries reordered ascending by the numeric interpretation of the key; in
particular on input `["3", "1", "2"]` the returned map iterates its keys
as `"1", "2", "3"` (for `getDevicesOnlineStatusThree` provided no fetch
rejects, since it otherwise returns no map at all). -/
theorem C6_numeric_sorted_output (env : Env) (ids : List String)
    (sched : List Nat) :
    (∀ m, getDevicesOnlineStatusTwo env ids = .ok m →
      SortedB keyLe (mapKeys m)) ∧
    (∀ m, getDevicesOnlineStatusThree env ids = .ok m →
      SortedB keyLe (mapKeys m)) ∧
    (∀ m, getDevicesOnlineStatusFour env ids sched = .ok m →
      SortedB keyLe (mapKeys m)) ∧
    (∃ m, getDevicesOnlineStatusTwo env ["3", "1", "2"] = .ok m ∧
      mapKeys m = ["1", "2", "3"]) ∧
    (∃ m, getDevicesOnlineStatusFour env ["3", "1", "2"] sched = .ok m ∧
      mapKeys m = ["1", "2", "3"]) ∧
    ((∀ d ∈ (["3", "1", "2"] : List String), env d ≠ .error ()) →
      ∃ m, getDevicesOnlineStatusThree env ["3", "1", "2"] = .ok m ∧
        mapKeys m = ["1", "2", "3"]) := by
  have hTwoKeys :
      mapKeys (sortedMap (assemble env [] ["3", "1", "2"])) =
        ["1", "2", "3"] := by
    rw [mapKeys_sortedMap]
    exact stableSort_keys_312 _ (mapKeys_assemble_nodup env _)
      (mem_mapKeys_assemble env _)
  refine ⟨?_, ?_, ?_, ⟨_, rfl, hTwoKeys⟩, ?_, ?_⟩
  · intro m hm
    rw [getDevicesOnlineStatusTwo] at hm
    injection hm with hm
    rw [← hm]
    exact sortedMap_keys_sorted _
  · intro m hm
    by_cases h : ∀ d ∈ ids, env d ≠ .error ()
    · rw [three_ok env ids h] at hm
      injection hm with hm
      rw [← hm]
      exact sortedMap_keys_sorted _
    · exfalso
      push_neg at h
      rcases h with ⟨d, hd, he⟩
      rw [three_error env ids ⟨d, hd, he⟩] at hm
      exact Except.noConfusion hm
  · intro m hm
    rw [getDevicesOnlineStatusFour] at hm
    injection hm with hm
    rw [← hm]
    exact sortedMap_keys_sorted _
  · refine ⟨_, rfl, ?_⟩
    rw [mapKeys_sortedMap]
    exact stableSort_keys_312 _ (four_run_keys_nodup env _ sched)
      (four_run_mem_keys env _ sched)
  · intro h
    exact ⟨_, three_ok env _ h, hTwoKeys⟩

/-- C6 witness: the concrete instance for the batched coordinator against
an all-`true` backend. -/
theorem C6_witness :
    ∃ m, getDevicesOnlineStatusThree (fun _ => .ok ⟨true, some true⟩)
      ["3", "1", "2"] = .ok m ∧ mapKeys m = ["1", "2", "3"] :=
  (C6_numeric_sorted_output (fun _ => .ok ⟨true, some true⟩)
    ["3", "1", "2"] []).2.2.2.2.2 (by intro d _; simp)

end Yellowbox
